import Mathlib

/-
  Shallow embedding of the propaelor numerical core (src/sumprod.cpp,
  src/span.cpp, src/sampler.cpp) and proofs checking the design
  specification against it.  Machine doubles are modelled as exact reals
  (log-space quantities as extended reals with a bottom element for
  minus infinity), GSL complex arithmetic as Lean complex numbers, and
  failing assertions as `Except` errors.
-/

namespace Propaelor

/-- Error labels of the propaelor error taxonomy. -/
inductive PErr where
  | numericalFailure
  | malformedAlignment
  | nonBinaryNode
  | disconnected
deriving DecidableEq, Repr

/-! ## Definitions: AlignGraph::Edge and AlignGraph::Partition (src/span.cpp) -/

/-- An edge of the alignment graph: two row indices and a log-likelihood
score `lp` (span.h; ordering of edges is by `lp`). -/
structure Edge (α : Type) where
  row1 : ℕ
  row2 : ℕ
  lp : α
deriving DecidableEq, Repr

/-- Disjoint-set structure over row indices: for each element its set
index, for each set index its member set, and the number of nonempty
sets (`AlignGraph::Partition` in span.h / span.cpp). -/
structure Partition where
  seqSetIdx : List ℕ
  seqSet : List (Finset ℕ)
  nSets : ℕ
deriving DecidableEq

/-- The `Partition(size_t n)` constructor: `n` singleton sets. -/
def Partition.start (n : ℕ) : Partition :=
  { seqSetIdx := List.range n
    seqSet := (List.range n).map (fun i => {i})
    nSets := n }

/-- Set index of a row (read of `seqSetIdx[r]`). -/
def Partition.idxOf (p : Partition) (r : ℕ) : ℕ := p.seqSetIdx.getD r 0

/-- `Partition::inSameSet`: the two rows of the edge have equal set index. -/
def Partition.inSameSet (p : Partition) (e : Edge α) : Prop :=
  p.idxOf e.row1 = p.idxOf e.row2

instance (p : Partition) (e : Edge α) : Decidable (p.inSameSet e) := by
  unfold Partition.inSameSet; infer_instance

/-- `Partition::merge`: if the edge joins two distinct sets, relabel and
absorb the members of the larger-indexed set into the smaller-indexed
set, clear the larger-indexed set in place, and decrement `nSets`. -/
def Partition.merge (p : Partition) (e : Edge α) : Partition :=
  if p.inSameSet e then p
  else
    let i1 := p.idxOf e.row1
    let i2 := p.idxOf e.row2
    let idx1 := if i1 > i2 then i2 else i1
    let idx2 := if i1 > i2 then i1 else i2
    let set1 := p.seqSet.getD idx1 ∅
    let set2 := p.seqSet.getD idx2 ∅
    { seqSetIdx := p.seqSetIdx.mapIdx (fun n2 v => if n2 ∈ set2 then idx1 else v)
      seqSet := (p.seqSet.set idx1 (set1 ∪ set2)).set idx2 ∅
      nSets := p.nSets - 1 }

/-! ## Definitions: tree interface (Tree collaborator, tree.h) -/

/-- The slice of the external `Tree` collaborator used by the embedded
code: post-ordered node indices `0..nodes-1`, parent indices (negative
for the root, as in the C++ `TreeNodeIndex` convention), child access,
sibling access and the leaf predicate. -/
structure PhyloTree where
  nodes : ℕ
  parentNode : ℕ → Int
  nChildren : ℕ → ℕ
  getChild : ℕ → ℕ → ℕ
  getSibling : ℕ → ℕ
  isLeaf : ℕ → Bool

/-! ## Definitions: Sampler node choice (src/sampler.cpp) -/

/-- The vector `intNodes` built by `Sampler::randomInternalNode`: all
non-leaf nodes of the tree, in index order. -/
def internalNodes (t : PhyloTree) : List ℕ :=
  (List.range t.nodes).filter (fun n => ! t.isLeaf n)

/-- `Sampler::randomInternalNode`: collect all non-leaf nodes and return
a random element.  `random_element` (util.h, not in src/) is modelled
from the spec: a uniform draw of one element of the vector; the drawn
position is the argument `k`. -/
def randomInternalNode (t : PhyloTree) (k : ℕ) : ℕ :=
  (internalNodes t).getD k 0

/-- The node-selection prefix of `Sampler::SampleNodeMove::SampleNodeMove`:
pick the node, read its parent, and assert that the node has exactly two
children (`Assert (history.tree.nChildren(node) == 2, "Non-binary tree")`). -/
def sampleNodeMovePick (t : PhyloTree) (k : ℕ) : Except PErr (ℕ × Int) :=
  let node := randomInternalNode t k
  let parent := t.parentNode node
  if t.nChildren node = 2 then .ok (node, parent) else .error .nonBinaryNode

/-- A two-leaf cherry: leaves 0 and 1 under the root 2.  The root is a
non-leaf node with two children and no parent. -/
def cherryTree : PhyloTree :=
  { nodes := 3
    parentNode := fun n => if n = 2 then -1 else 2
    nChildren := fun n => if n = 2 then 2 else 0
    getChild := fun n k => if n = 2 then (if k = 0 then 0 else 1) else 0
    getSibling := fun n => if n = 0 then 1 else 0
    isLeaf := fun n => n != 2 }

/-! ## Definitions: alignment column initialisation (src/sumprod.cpp) -/

/-- A column character at one alignment row: gap, wildcard, or an
alphabet token (tokenisation by `RateModel::tokenize` folded in). -/
inductive Cell where
  | gap
  | wild
  | tok (x : ℕ)
deriving DecidableEq, Repr

/-- `Alignment::isGap` on the cell. -/
def Cell.isGap : Cell → Bool
  | .gap => true
  | _ => false

/-- `isWild` on the cell (comparison with `Alignment::wildcardChar`). -/
def Cell.isWild : Cell → Bool
  | .wild => true
  | _ => false

/-- Token of a non-gap, non-wildcard cell. -/
def Cell.tokOf : Cell → ℕ
  | .tok x => x
  | _ => 0

/-- Loop state of `AlignColSumProduct::initColumn`. -/
structure InitColState where
  ungappedRows : List ℕ
  ungappedKids : List ℕ
  roots : List ℕ
deriving DecidableEq, Repr

/-- One iteration of the `initColumn` loop body for node `r`: skip
gapped rows; otherwise record the row, check the wildcard assertion
against the ungapped-children count seen so far, and either record a
column root (absent or gapped parent) or bump the parent's count. -/
def initColumnStep (t : PhyloTree) (cell : ℕ → Cell) (st : InitColState) (r : ℕ) :
    Except PErr InitColState :=
  if (cell r).isGap then .ok st
  else
    let st1 : InitColState := { st with ungappedRows := st.ungappedRows ++ [r] }
    if (cell r).isWild || st1.ungappedKids.getD r 0 == 0 then
      let rp := t.parentNode r
      if rp < 0 ∨ (cell rp.toNat).isGap then .ok { st1 with roots := st1.roots ++ [r] }
      else .ok { st1 with ungappedKids :=
        st1.ungappedKids.set rp.toNat (st1.ungappedKids.getD rp.toNat 0 + 1) }
    else .error .malformedAlignment

/-- `AlignColSumProduct::initColumn`: fold the loop body over the nodes
in index (post-) order, then assert that exactly one column root was
found. -/
def initColumn (t : PhyloTree) (cell : ℕ → Cell) : Except PErr (List ℕ) := do
  let st ← (List.range t.nodes).foldlM (initColumnStep t cell)
    ⟨[], List.replicate t.nodes 0, []⟩
  if st.roots.length = 1 then pure st.ungappedRows else .error .malformedAlignment

/-- Rows whose cell is ungapped among the first `m` nodes. -/
def ungappedRowsTo (cell : ℕ → Cell) (m : ℕ) : List ℕ :=
  (List.range m).filter (fun r => !(cell r).isGap)

/-- Column roots among the first `m` nodes: ungapped rows whose parent
is absent or gapped. -/
def columnRootsTo (t : PhyloTree) (cell : ℕ → Cell) (m : ℕ) : List ℕ :=
  (List.range m).filter
    (fun r => !(cell r).isGap &&
      (decide (t.parentNode r < 0) || (cell (t.parentNode r).toNat).isGap))

/-- Number of ungapped children of `p` among the first `m` nodes, as
counted by the loop (the count is only maintained while `p` itself is
ungapped). -/
def kidsCountTo (t : PhyloTree) (cell : ℕ → Cell) (m p : ℕ) : ℕ :=
  ((List.range m).filter
    (fun c => !(cell c).isGap && decide (0 ≤ t.parentNode c) &&
      ((t.parentNode c).toNat == p) && !(cell p).isGap)).length

/-- An ungapped, non-wildcard node that has at least one ungapped child
in the column: exactly the configuration whose assertion fails. -/
def badNodeB (t : PhyloTree) (cell : ℕ → Cell) (r : ℕ) : Bool :=
  !(cell r).isGap && !(cell r).isWild &&
    ((List.range t.nodes).any
      (fun c => !(cell c).isGap && decide (0 ≤ t.parentNode c) &&
        ((t.parentNode c).toNat == r)))

/-- Post-order discipline on parent pointers: every child index is less
than its parent index and parent indices are in range. -/
def PostOrdered (t : PhyloTree) : Prop :=
  ∀ r, r < t.nodes → 0 ≤ t.parentNode r →
    r < (t.parentNode r).toNat ∧ (t.parentNode r).toNat < t.nodes

/-- The column used against claim C5: both leaves gapped, the internal
root holding an alphabet token rather than the wildcard. -/
def colC5 : ℕ → Cell := fun r => if r = 2 then Cell.tok 0 else Cell.gap

/-- The column refuting C5 together with an error-raising variant used
by the amended theorem's witness: leaf 0 ungapped, leaf 1 gapped, root
holding a non-wildcard token. -/
def colC5bad : ℕ → Cell := fun r =>
  if r = 0 then Cell.tok 0 else if r = 2 then Cell.tok 1 else Cell.gap


/-! ## Definitions: log-space arithmetic and the column sum-product pass -/

/-- Exponential of a log-space value (doubles with minus infinity are
modelled as extended reals): `exp(-∞) = 0`.  The top element never
arises in the embedded code; it is mapped to 0. -/
noncomputable def eexp (x : EReal) : ℝ :=
  if x = ⊥ ∨ x = ⊤ then 0 else Real.exp x.toReal

/-- Logarithm into log space: the log of a nonpositive double is
minus infinity. -/
noncomputable def elog (p : ℝ) : EReal :=
  if p ≤ 0 then ⊥ else ((Real.log p : ℝ) : EReal)

/-- Modelled from the spec: `log_accum_exp` / `logInnerProduct`
(util.h, not in src/) realise log-space accumulation
`log_accum_exp(a,b) = max(a,b) + log1p(exp(-|a-b|))`, which on exact
reals is logsumexp, with minus-infinity inputs dominating correctly; a
fold of it over finitely many terms is the log of the sum of the
exponentials. -/
noncomputable def logSumExp (s : Finset ι) (f : ι → EReal) : EReal :=
  elog (∑ i in s, eexp (f i))

/-- Per-column log-space buffers of `AlignColSumProduct` together with
the column log-likelihood. -/
structure ColBuffers where
  logE : ℕ → ℕ → EReal
  logF : ℕ → ℕ → EReal
  logG : ℕ → ℕ → EReal
  colLogLike : EReal

/-- Body of the `fillUp` loop for one ungapped row `r` (sumprod.cpp
lines 237-265): a wildcard row adds up (in log space) the `logE`
messages of all children of `r`; an observed row is a point indicator;
the column root sets `colLogLike` as the log inner product of its
`logF` with the log insertion probabilities, every other row computes
its `logE` message through its branch substitution matrix `lsub`. -/
noncomputable def fillUpStep (A : ℕ) (t : PhyloTree) (cell : ℕ → Cell)
    (lsub : ℕ → ℕ → ℕ → EReal) (logInsProb : ℕ → EReal) (rootIdx : ℕ)
    (st : ColBuffers) (r : ℕ) : ColBuffers :=
  let logFr : ℕ → EReal :=
    if (cell r).isWild then
      fun i => ∑ nc in Finset.range (t.nChildren r), st.logE (t.getChild r nc) i
    else
      fun i => if i = (cell r).tokOf then 0 else ⊥
  let st1 : ColBuffers := { st with logF := Function.update st.logF r logFr }
  let logEr : ℕ → EReal :=
    fun i => logSumExp (Finset.range A) (fun j => lsub r i j + logFr j)
  if r = rootIdx then
    { st1 with colLogLike := logSumExp (Finset.range A) (fun i => logFr i + logInsProb i) }
  else
    { st1 with logE := Function.update st1.logE r logEr }

/-- `AlignColSumProduct::fillUp` (sumprod.cpp lines 237-265): reset the
column log-likelihood, then run the loop body over the ungapped rows in
post-order.  `rootIdx` is the column root returned by `root()`
(sumprod.h, not in src/; modelled from the spec: the uppermost, i.e.
last, ungapped row). -/
noncomputable def fillUp (A : ℕ) (t : PhyloTree) (cell : ℕ → Cell)
    (lsub : ℕ → ℕ → ℕ → EReal) (logInsProb : ℕ → EReal)
    (ungappedRows : List ℕ) (rootIdx : ℕ) (st : ColBuffers) : ColBuffers :=
  ungappedRows.foldl (fillUpStep A t cell lsub logInsProb rootIdx)
    { st with colLogLike := ⊥ }

/-- `AlignColSumProduct::accumulateRootCounts` (sumprod.cpp lines
303-306): add `exp(logInsProb[i] + logF[root][i] - colLogLike)` into
each of the `A` buckets of the root-count vector. -/
noncomputable def accumRootCounts (A : ℕ) (logInsProb logFroot : ℕ → EReal)
    (colLogLike : EReal) (v : ℕ → ℝ) : ℕ → ℝ :=
  fun i => if i < A then v i + eexp (logInsProb i + logFroot i - colLogLike) else v i

/-- First column used against C4: all three rows ungapped. -/
def colC4a : ℕ → Cell := fun r => if r = 2 then Cell.wild else Cell.tok 0

/-- Second column used against C4: leaf 0 gapped, leaf 1 and the
wildcard root ungapped. -/
def colC4b : ℕ → Cell := fun r =>
  if r = 0 then Cell.gap else if r = 1 then Cell.tok 0 else Cell.wild

/-- Branch log-substitution tables used against C4 (single-letter
alphabet): log P is -1 on the branch above node 0 and -2 above node 1. -/
def lsubC4 : ℕ → ℕ → ℕ → EReal := fun r _ _ =>
  if r = 0 then ((-1 : ℝ) : EReal) else ((-2 : ℝ) : EReal)

/-- Log insertion probabilities used against C4: a one-letter alphabet
with unit insertion probability. -/
def logPiC4 : ℕ → EReal := fun _ => 0

/-- Fresh column buffers: freshly value-initialised double vectors, all
zero, as allocated by the `AlignColSumProduct` constructor. -/
def freshBuffers : ColBuffers :=
  { logE := fun _ _ => 0, logF := fun _ _ => 0, logG := fun _ _ => 0, colLogLike := ⊥ }

/-- The buffer state after running `fillUp` on the two C4 columns in
sequence. -/
noncomputable def bufC4 : ColBuffers :=
  fillUp 1 cherryTree colC4b lsubC4 logPiC4 [1, 2] 2
    (fillUp 1 cherryTree colC4a lsubC4 logPiC4 [0, 1, 2] 2 freshBuffers)


/-! ## Definitions: eigendecomposition engine (EigenModel, src/sumprod.cpp) -/

/-- `SUMPROD_EPSILON` (sumprod.cpp line 11). -/
noncomputable def sumprodEpsilon : ℝ := 1 / 1000000

/-- Binary exponent reported by `frexp`: for nonzero `x` the unique `e`
with `2^(e-1) ≤ |x| < 2^e`; `frexp` of 0 reports exponent 0. -/
noncomputable def frexpExponent (x : ℝ) : ℤ :=
  if x = 0 then 0 else Int.log 2 |x| + 1

/-- `gsl_fcmp(x1, x2, eps)` (GSL collaborator of sumprod.cpp):
approximate equality with tolerance relative to the binary exponent of
`max(|x1|, |x2|)`; returns 0 when `|x1 - x2| ≤ ldexp(eps, exponent)`,
otherwise the sign of the difference. -/
noncomputable def gslFcmp (x1 x2 eps : ℝ) : ℤ :=
  let m := max |x1| |x2|
  let delta := eps * (2 : ℝ) ^ (frexpExponent m)
  let diff := x1 - x2
  if diff > delta then 1 else if diff < -delta then -1 else 0

/-- `SUMPROD_NEAR_EQ` (sumprod.cpp line 12). -/
noncomputable def nearEq (x y : ℝ) : Prop := gslFcmp x y sumprodEpsilon = 0

/-- `SUMPROD_NEAR_EQ_COMPLEX` (sumprod.cpp line 13): componentwise
near-equality of real and imaginary parts. -/
noncomputable def nearEqComplex (x y : ℂ) : Prop := nearEq x.re y.re ∧ nearEq x.im y.im

/-- `SUMPROD_NEAR_REAL` (sumprod.cpp line 14). -/
noncomputable def nearReal (x : ℂ) : Prop := nearEq x.im 0

noncomputable instance (x y : ℝ) : Decidable (nearEq x y) := by
  unfold nearEq; infer_instance

noncomputable instance (x y : ℂ) : Decidable (nearEqComplex x y) := by
  unfold nearEqComplex; infer_instance

noncomputable instance (x : ℂ) : Decidable (nearReal x) := by
  unfold nearReal; infer_instance

/-- `EigenModel::eigenSubCount` (sumprod.cpp lines 159-176): the
complex eigen-substitution-count matrix at branch length `t`, with the
degenerate branch taken when the two eigenvalues coincide by index or
near-equality. -/
noncomputable def eigenSubCount (A : ℕ) (ev : ℕ → ℂ) (t : ℝ) : ℕ → ℕ → ℂ :=
  fun i j =>
    if i = j ∨ nearEqComplex (ev i) (ev j) then
      Complex.exp (ev i * t) * t
    else
      (Complex.exp (ev i * t) - Complex.exp (ev j * t)) / (ev i - ev j)

/-- `EigenModel::getSubProbInner` (sumprod.cpp lines 107-117): the
spectral sum for the transition probability; the assertion that it is
near-real becomes an error, and the real part is clamped into `[0,1]`
by `min (1., max (0., ...))`. -/
noncomputable def getSubProbInner (A : ℕ) (evec evecInv : ℕ → ℕ → ℂ) (ev : ℕ → ℂ)
    (t : ℝ) (i j : ℕ) : Except PErr ℝ :=
  let p : ℂ := ∑ k in Finset.range A, evec i k * evecInv k j * Complex.exp (ev k * t)
  if nearReal p then .ok (min 1 (max 0 p.re)) else .error .numericalFailure


/-! ## Definitions: substitution-count accumulation (src/sumprod.cpp) -/

/-- The spectral sum `∑_k V[i,k]·V⁻¹[k,j]·exp(λ_k t)` computed by
`EigenModel::getSubProbInner` before the near-real assertion and the
clamp (also the body of `getSubProbMatrix`). -/
noncomputable def subProbSpectral (A : ℕ) (evec evecInv : ℕ → ℕ → ℂ) (ev : ℕ → ℂ)
    (t : ℝ) (i j : ℕ) : ℂ :=
  ∑ k in Finset.range A, evec i k * evecInv k j * Complex.exp (ev k * t)

/-- `EigenModel::getSubProbMatrix` (sumprod.cpp lines 119-126) on a run
where every entry passes the near-real assertion: each entry is the
clamped real part of the spectral sum. -/
noncomputable def getSubProbMatrixRe (A : ℕ) (evec evecInv : ℕ → ℕ → ℂ) (ev : ℕ → ℂ)
    (t : ℝ) : ℕ → ℕ → ℝ :=
  fun i j => min 1 (max 0 (subProbSpectral A evec evecInv ev t i j).re)

/-- The complex double sum `c_ij` of `EigenModel::getSubCount`
(sumprod.cpp lines 131-148). -/
noncomputable def subCountInner (A : ℕ) (evec evecInv : ℕ → ℕ → ℂ)
    (eSubCount : ℕ → ℕ → ℂ) (a b i j : ℕ) : ℂ :=
  ∑ k in Finset.range A,
    (evec a k * evecInv k i) *
      (∑ l in Finset.range A, (evec j l * evecInv l b) * eSubCount k l)

/-- `EigenModel::getSubCount` (sumprod.cpp lines 128-151) on a run
where its near-real assertion passes:
`max(0, (i==j ? 1 : Q_ij) · Re(c_ij) / P_ab)`. -/
noncomputable def getSubCountRe (A : ℕ) (evec evecInv : ℕ → ℕ → ℂ)
    (subRate : ℕ → ℕ → ℝ) (a b i j : ℕ) (sub : ℕ → ℕ → ℝ)
    (eSubCount : ℕ → ℕ → ℂ) : ℝ :=
  max 0 ((if i = j then 1 else subRate i j) *
    (subCountInner A evec evecInv eSubCount a b i j).re / sub a b)

/-- `EigenModel::accumSubCounts` (sumprod.cpp lines 153-157): in-place
`A×A` accumulation of `weight · C(a,b,·,·)` into the count matrix. -/
noncomputable def accumSubCounts (A : ℕ) (evec evecInv : ℕ → ℕ → ℂ)
    (subRate : ℕ → ℕ → ℝ) (count : ℕ → ℕ → ℝ) (a b : ℕ) (weight : ℝ)
    (sub : ℕ → ℕ → ℝ) (eSubCount : ℕ → ℕ → ℂ) : ℕ → ℕ → ℝ :=
  fun i j =>
    if i < A ∧ j < A then
      count i j + getSubCountRe A evec evecInv subRate a b i j sub eSubCount * weight
    else count i j

/-- `AlignColSumProduct::logBranchPostProb` (sumprod.cpp lines 292-296). -/
noncomputable def logBranchPostProb (t : PhyloTree) (lsub : ℕ → ℕ → ℕ → EReal)
    (st : ColBuffers) (node a b : ℕ) : EReal :=
  st.logG (t.parentNode node).toNat a + lsub node a b + st.logF node b +
    st.logE (t.getSibling node) a - st.colLogLike

/-- The substitution-count side of `AlignColSumProduct::accumulateSubCounts`
(sumprod.cpp lines 308-320): for every non-root ungapped node, accumulate
`C(a,b,·,·)` over all `(a,b)` pairs weighted by `exp(logBranchPostProb)`;
the root-count update that this entry point shares verbatim with the eigen
path is `accumRootCounts`. -/
noncomputable def accumulateSubCountsMatrix (A : ℕ) (t : PhyloTree)
    (evec evecInv : ℕ → ℕ → ℂ) (ev : ℕ → ℂ) (subRate : ℕ → ℕ → ℝ)
    (branchLen : ℕ → ℝ) (lsub : ℕ → ℕ → ℕ → EReal) (eSub : ℕ → ℕ → ℕ → ℂ)
    (st : ColBuffers) (ungappedRows : List ℕ) (rootIdx : ℕ)
    (subCounts : ℕ → ℕ → ℝ) : ℕ → ℕ → ℝ :=
  ungappedRows.foldl (fun cnt node =>
    if node = rootIdx then cnt
    else
      (List.range A).foldl (fun cnt2 a =>
        (List.range A).foldl (fun cnt3 b =>
          accumSubCounts A evec evecInv subRate cnt3 a b
            (eexp (logBranchPostProb t lsub st node a b))
            (getSubProbMatrixRe A evec evecInv ev (branchLen node))
            (eSub node)) cnt2) cnt) subCounts

/-- `max_element` over the first `A` entries of a log vector. -/
noncomputable def maxOver (A : ℕ) (f : ℕ → EReal) : EReal := (Finset.range A).sup f

/-- Per-node, per-entry increment of
`AlignColSumProduct::accumulateEigenCounts` (sumprod.cpp lines 322-396):
`Dbasis[k] · M[k,l] · Ubasis[l] / norm` built from the max-shifted
up/down messages transformed into the eigenbasis. -/
noncomputable def eigenCountsTerm (A : ℕ) (t : PhyloTree)
    (evec evecInv : ℕ → ℕ → ℂ) (st : ColBuffers) (eSub : ℕ → ℕ → ℕ → ℂ)
    (node k l : ℕ) : ℂ :=
  let logU : ℕ → EReal := st.logF node
  let logD : ℕ → EReal := fun i =>
    st.logG (t.parentNode node).toNat i + st.logE (t.getSibling node) i
  let maxLogU := maxOver A logU
  let maxLogD := maxOver A logD
  let norm : ℝ := eexp (st.colLogLike - maxLogU - maxLogD)
  let u : ℕ → ℝ := fun b => eexp (logU b - maxLogU)
  let d : ℕ → ℝ := fun a => eexp (logD a - maxLogD)
  let ubasis : ℕ → ℂ := fun l => ∑ b in Finset.range A, evecInv l b * (u b : ℂ)
  let dbasis : ℕ → ℂ := fun k => ∑ a in Finset.range A, evec a k * (d a : ℂ)
  dbasis k * (eSub node k l * ubasis l) / (norm : ℂ)

/-- The eigen-counts side of `AlignColSumProduct::accumulateEigenCounts`
(sumprod.cpp lines 322-396): for every non-root ungapped node add the
per-node `Dbasis·M·Ubasis/norm` increments into the complex eigen-counts
accumulator. -/
noncomputable def accumulateEigenCountsMatrix (A : ℕ) (t : PhyloTree)
    (evec evecInv : ℕ → ℕ → ℂ) (st : ColBuffers) (eSub : ℕ → ℕ → ℕ → ℂ)
    (ungappedRows : List ℕ) (rootIdx : ℕ) (eigenCounts : ℕ → ℕ → ℂ) : ℕ → ℕ → ℂ :=
  ungappedRows.foldl (fun ec node =>
    if node = rootIdx then ec
    else fun k l =>
      if k < A ∧ l < A then ec k l + eigenCountsTerm A t evec evecInv st eSub node k l
      else ec k l) eigenCounts

/-- `AlignColSumProduct::getSubCounts` (sumprod.cpp lines 398-422):
back-transform of the accumulated eigen-counts matrix into the real
substitution-count matrix. -/
noncomputable def getSubCounts (A : ℕ) (evec evecInv : ℕ → ℕ → ℂ)
    (subRate : ℕ → ℕ → ℝ) (eigenCounts : ℕ → ℕ → ℂ) : ℕ → ℕ → ℝ :=
  fun i j =>
    let c : ℂ := ∑ k in Finset.range A,
      evecInv k i * (∑ l in Finset.range A, eigenCounts k l * evec j l)
    if i = j then c.re else c.re * subRate i j

/-- The coherence conditions under which one column's direct and eigen
count accumulations agree at a non-root ungapped node: the buffer
entries read for the node are finite on top (they are sums and logs of
finite doubles in the code), the max-shifts are not minus infinity
(the node has at least one live state), the branch log-probability
table agrees with the spectral transition probabilities, those
probabilities lie in `(0, 1]` (so the clamp in `getSubProbInner` is
inactive and the division is by a nonzero number), and the conditional
count integrand is nonnegative (so the clamp in `getSubCount` is
inactive), as exact arithmetic guarantees for a rate matrix. -/
def C1NodeHyp (A : ℕ) (t : PhyloTree) (evec evecInv : ℕ → ℕ → ℂ) (ev : ℕ → ℂ)
    (subRate : ℕ → ℕ → ℝ) (branchLen : ℕ → ℝ) (lsub : ℕ → ℕ → ℕ → EReal)
    (eSub : ℕ → ℕ → ℕ → ℂ) (st : ColBuffers) (node : ℕ) : Prop :=
  (∀ b, b < A → st.logF node b ≠ ⊤) ∧
  (∀ a, a < A → st.logG (t.parentNode node).toNat a ≠ ⊤ ∧
    st.logE (t.getSibling node) a ≠ ⊤) ∧
  maxOver A (st.logF node) ≠ ⊥ ∧
  maxOver A (fun i => st.logG (t.parentNode node).toNat i +
    st.logE (t.getSibling node) i) ≠ ⊥ ∧
  (∀ a b, a < A → b < A →
    eexp (lsub node a b) = (subProbSpectral A evec evecInv ev (branchLen node) a b).re ∧
    0 < (subProbSpectral A evec evecInv ev (branchLen node) a b).re ∧
    (subProbSpectral A evec evecInv ev (branchLen node) a b).re ≤ 1) ∧
  (∀ a b i j, a < A → b < A → i < A → j < A →
    0 ≤ (if i = j then 1 else subRate i j) *
      (subCountInner A evec evecInv (eSub node) a b i j).re)


/-! ## Definitions: maximum-weight spanning tree extraction (src/span.cpp) -/

/-- Lazy deletion of stale priority-queue tops
(`while (!edges[src].empty() && part.inSameSet (edges[src].top())) edges[src].pop();`):
drop leading edges whose endpoints already share a set.  The priority
queue is modelled as a list sorted by nonincreasing `lp`, its head
being the top. -/
def popStale (part : Partition) : List (Edge α) → List (Edge α)
  | [] => []
  | e :: rest => if part.inSameSet e then popStale part rest else e :: rest

/-- One iteration of the scan
`for (auto src : part.seqSet.front()) { ...pop stale...; if (!empty && (!foundBest || best < top)) best = top; }`:
pop the stale tops of `src`'s queue in place and keep the running best
top under the `lp` edge ordering (span.h). -/
def scanStep [LinearOrder α] (part : Partition)
    (acc : (ℕ → List (Edge α)) × Option (Edge α)) (src : ℕ) :
    (ℕ → List (Edge α)) × Option (Edge α) :=
  let q := popStale part (acc.1 src)
  let edges2 := Function.update acc.1 src q
  match q, acc.2 with
  | [], b => (edges2, b)
  | e :: _, none => (edges2, some e)
  | e :: _, some b => (edges2, if b.lp < e.lp then some e else some b)

/-- The body of `AlignGraph::minSpanTree` (span.cpp lines 81-103) with a
fuel bound on the number of loop iterations (each iteration merges two
sets, so `k` fuel is never exhausted): while more than one set remains,
scan the members of `seqSet.front()` in ascending order, popping stale
tops and taking the best remaining top; fail with `Disconnected` when no
valid edge exists, otherwise record the edge and merge. -/
def minSpanTreeGo [LinearOrder α] :
    ℕ → (ℕ → List (Edge α)) → Partition → Except PErr (List (Edge α))
  | 0, _, _ => .error .disconnected
  | fuel + 1, edges, part =>
    if part.nSets ≤ 1 then .ok []
    else
      let scan := ((part.seqSet.getD 0 ∅).sort (· ≤ ·)).foldl (scanStep part)
        (edges, none)
      match scan.2 with
      | none => .error .disconnected
      | some best =>
          match minSpanTreeGo fuel scan.1 (part.merge best) with
          | .ok rest => .ok (best :: rest)
          | .error err => .error err

/-- `AlignGraph::minSpanTree` over `k` sequences: run the loop from a
fresh partition of `k` singletons.  The selected edges stand for the
alignment paths pushed onto the result list (each path is looked up by
the edge's row pair). -/
def minSpanTree [LinearOrder α] (k : ℕ) (edges : ℕ → List (Edge α)) :
    Except PErr (List (Edge α)) :=
  minSpanTreeGo k edges (Partition.start k)

/-- One-edge adjacency over an edge set (given by a membership
predicate): `u` and `v` are the two rows of some edge. -/
def estep (P : Edge α → Prop) (u v : ℕ) : Prop :=
  ∃ e, P e ∧ ((e.row1 = u ∧ e.row2 = v) ∨ (e.row1 = v ∧ e.row2 = u))

/-- Connectivity: reflexive-transitive closure of one-edge adjacency. -/
def conn (P : Edge α → Prop) (u v : ℕ) : Prop :=
  Relation.ReflTransGen (estep P) u v

/-- An edge set spans the `k` rows when it connects every pair. -/
def spanning (k : ℕ) (P : Edge α → Prop) : Prop :=
  ∀ u v, u < k → v < k → conn P u v

/-- Fold a list of merges into a fresh partition: the partition state
maintained by `minSpanTree` after selecting the listed edges. -/
def mergeAll (k : ℕ) (C : List (Edge α)) : Partition :=
  C.foldl Partition.merge (Partition.start k)

/-- Queue ordering: nonincreasing `lp` (a `std::priority_queue` with the
`lp` comparison serves its largest element first). -/
def edgeGE (a b : Edge α) [LE α] : Prop := b.lp ≤ a.lp

/-- Explicit walk witness for `conn`: `isChain P u l v` holds when the
vertex list `u :: l` steps from `u` to `v` through edges of `P`. -/
def isChain (P : Edge α → Prop) : ℕ → List ℕ → ℕ → Prop
  | u, [], v => u = v
  | u, z :: l, v => estep P u z ∧ isChain P z l v

/-- Invariant tying a `Partition` to the list `C` of merged edges over
rows `0..k-1`: lengths, mutual membership of rows and sets, equivalence
of set indices with `conn` over `C`, and `nSets` counting the nonempty
sets. -/
structure PartInv (k : ℕ) (C : List (Edge α)) (p : Partition) : Prop where
  idxLen : p.seqSetIdx.length = k
  setLen : p.seqSet.length = k
  memOwn : ∀ r, r < k → p.idxOf r < k ∧ r ∈ p.seqSet.getD (p.idxOf r) ∅
  ownMem : ∀ s, s < k → ∀ m ∈ p.seqSet.getD s ∅, m < k ∧ p.idxOf m = s ∧ s ≤ m
  classes : ∀ u v, u < k → v < k →
    (p.idxOf u = p.idxOf v ↔ conn (fun g => g ∈ C) u v)
  countSets : p.nSets =
    ((Finset.range k).filter (fun s => p.seqSet.getD s ∅ ≠ ∅)).card

/-- Destination index of a merge: the smaller of the two set indices
(`if (idx1 > idx2) swap (idx1, idx2)` in `Partition::merge`). -/
def mergeIdx1 (p : Partition) (e : Edge α) : ℕ :=
  if p.idxOf e.row1 > p.idxOf e.row2 then p.idxOf e.row2 else p.idxOf e.row1

/-- Source index of a merge: the larger of the two set indices. -/
def mergeIdx2 (p : Partition) (e : Edge α) : ℕ :=
  if p.idxOf e.row1 > p.idxOf e.row2 then p.idxOf e.row1 else p.idxOf e.row2

/-- Invariant of the per-vertex priority queues during `minSpanTree`:
each queue is sorted by nonincreasing `lp`, holds only stored edges
incident to its vertex, and still holds every stored incident edge
whose endpoints are not yet connected by the selected edges `C` (lazy
deletion only ever discards stale edges). -/
def QInv {α : Type} [LE α] (k : ℕ) (es C : List (Edge α)) (E : ℕ → List (Edge α)) : Prop :=
  ∀ v, v < k →
    (E v).Pairwise (fun a b => b.lp ≤ a.lp) ∧
    (∀ f ∈ E v, f ∈ es ∧ (f.row1 = v ∨ f.row2 = v)) ∧
    (∀ f ∈ es, (f.row1 = v ∨ f.row2 = v) →
      ¬ conn (fun g => g ∈ C) f.row1 f.row2 → f ∈ E v)

/-! ## Theorems -/

section PartitionTheorems

theorem Partition.merge_of_inSameSet (p : Partition) (e : Edge α) (h : p.inSameSet e) :
    p.merge e = p := by
  unfold Partition.merge
  rw [if_pos h]

theorem listGetD_eq_get (l : List β) (d : β) {n : ℕ} (h : n < l.length) :
    l.getD n d = l.get ⟨n, h⟩ := by
  rw [List.getD_eq_getElem l d h]
  exact (List.get_eq_getElem l ⟨n, h⟩).symm

theorem Partition.getD_mapIdx (l : List β) (f : ℕ → β → β) (n : ℕ) (d : β)
    (h : n < l.length) :
    (l.mapIdx f).getD n d = f n (l.get ⟨n, h⟩) := by
  have h' : n < (l.mapIdx f).length := by simpa [List.length_mapIdx] using h
  rw [listGetD_eq_get _ _ h']
  exact List.get_mapIdx l f n h h'

/-- After a merge of an edge whose two rows are in range and are members
of their own sets, the two rows are in the same set. -/
theorem Partition.inSameSet_merge (p : Partition) (e : Edge α)
    (h1 : e.row1 < p.seqSetIdx.length) (h2 : e.row2 < p.seqSetIdx.length)
    (hv1 : e.row1 ∈ p.seqSet.getD (p.idxOf e.row1) ∅)
    (hv2 : e.row2 ∈ p.seqSet.getD (p.idxOf e.row2) ∅)
    (h : ¬ p.inSameSet e) :
    (p.merge e).inSameSet e := by
  have hg1 : p.seqSetIdx.get ⟨e.row1, h1⟩ = p.idxOf e.row1 :=
    (List.getD_eq_getElem p.seqSetIdx 0 h1).symm
  have hg2 : p.seqSetIdx.get ⟨e.row2, h2⟩ = p.idxOf e.row2 :=
    (List.getD_eq_getElem p.seqSetIdx 0 h2).symm
  show (p.merge e).idxOf e.row1 = (p.merge e).idxOf e.row2
  unfold Partition.merge
  rw [if_neg h]
  show (p.seqSetIdx.mapIdx _).getD e.row1 0 = (p.seqSetIdx.mapIdx _).getD e.row2 0
  rw [Partition.getD_mapIdx _ _ _ _ h1, Partition.getD_mapIdx _ _ _ _ h2]
  simp only [hg1, hg2]
  by_cases hgt : p.idxOf e.row1 > p.idxOf e.row2
  · simp only [if_pos hgt, if_pos hv1, ite_self]
  · simp only [if_neg hgt, if_pos hv2, ite_self]

/-- C6: starting from a Partition of five singleton sets, merging
edge(1,3), then edge(0,4), then edge(3,4) leaves `nSets = 2`, the two
nonempty member sets being `{0,1,3,4}` and `{2}`; each merge relabels
into the smaller index and the emptied sets stay in place. -/
theorem claimC6_partition_merge_scenario :
    (((((Partition.start 5).merge (⟨1, 3, (0 : ℚ)⟩ : Edge ℚ)).merge
        ⟨0, 4, 0⟩).merge ⟨3, 4, 0⟩).nSets = 2) ∧
    ((((Partition.start 5).merge (⟨1, 3, (0 : ℚ)⟩ : Edge ℚ)).merge
        ⟨0, 4, 0⟩).merge ⟨3, 4, 0⟩).seqSet = [{0, 1, 3, 4}, ∅, {2}, ∅, ∅] ∧
    ((((Partition.start 5).merge (⟨1, 3, (0 : ℚ)⟩ : Edge ℚ)).merge
        ⟨0, 4, 0⟩).merge ⟨3, 4, 0⟩).seqSetIdx = [0, 0, 2, 0, 0] := by
  decide

/-- C10: a merge of an edge whose endpoints already share a set leaves
the partition unchanged, and (for endpoints that are in range and
members of their own sets, as the `Partition` constructor and `merge`
maintain) merging the same edge twice equals merging it once. -/
theorem claimC10_merge_idempotent (α : Type) (p : Partition) (e : Edge α)
    (h1 : e.row1 < p.seqSetIdx.length) (h2 : e.row2 < p.seqSetIdx.length)
    (hv1 : e.row1 ∈ p.seqSet.getD (p.idxOf e.row1) ∅)
    (hv2 : e.row2 ∈ p.seqSet.getD (p.idxOf e.row2) ∅) :
    (p.inSameSet e → p.merge e = p) ∧ (p.merge e).merge e = p.merge e := by
  constructor
  · exact Partition.merge_of_inSameSet p e
  · by_cases h : p.inSameSet e
    · simp only [Partition.merge_of_inSameSet p e h]
    · exact Partition.merge_of_inSameSet _ e (Partition.inSameSet_merge p e h1 h2 hv1 hv2 h)

/-- Witness for C10 at a concrete two-element partition. -/
theorem claimC10_merge_idempotent_witness :
    ((0 : ℕ) < (Partition.start 2).seqSetIdx.length ∧
      (1 : ℕ) < (Partition.start 2).seqSetIdx.length ∧
      (0 : ℕ) ∈ (Partition.start 2).seqSet.getD ((Partition.start 2).idxOf 0) ∅ ∧
      (1 : ℕ) ∈ (Partition.start 2).seqSet.getD ((Partition.start 2).idxOf 1) ∅) ∧
    (((Partition.start 2).merge (⟨0, 1, (0 : ℚ)⟩ : Edge ℚ)).merge ⟨0, 1, 0⟩ =
      (Partition.start 2).merge ⟨0, 1, 0⟩) := by
  refine ⟨⟨by decide, by decide, by decide, by decide⟩, ?_⟩
  exact (claimC10_merge_idempotent ℚ (Partition.start 2) ⟨0, 1, 0⟩
    (by decide) (by decide) (by decide) (by decide)).2

end PartitionTheorems

section SamplerTheorems

/-- C8 counterexample: on the two-leaf cherry the root is a non-leaf
node, it is selected by `randomInternalNode`, it has no parent, and the
move's own assertion accepts it — contradicting the claim that the
selected node always has a parent and that the root is never selected. -/
theorem claimC8_counterexample :
    randomInternalNode cherryTree 0 = 2 ∧
    cherryTree.parentNode 2 < 0 ∧
    cherryTree.isLeaf 2 = false ∧
    sampleNodeMovePick cherryTree 0 = .ok (2, -1) :=
  ⟨by decide, by decide, by decide, rfl⟩

/-- C8 amended: the node choice is uniform over exactly the non-leaf
nodes — including the root: every draw yields a non-leaf node, every
non-leaf node is produced by exactly one draw position, and a successful
move additionally guarantees exactly two children (never a parent). -/
theorem claimC8_amended_uniform_nonleaf (t : PhyloTree) :
    (∀ k, k < (internalNodes t).length →
      t.isLeaf (randomInternalNode t k) = false ∧ randomInternalNode t k < t.nodes) ∧
    (∀ n, n < t.nodes → t.isLeaf n = false →
      ∃! k, k < (internalNodes t).length ∧ randomInternalNode t k = n) ∧
    (∀ k n p, sampleNodeMovePick t k = .ok (n, p) →
      n = randomInternalNode t k ∧ p = t.parentNode n ∧ t.nChildren n = 2) := by
  have hnodup : (internalNodes t).Nodup :=
    (List.nodup_range t.nodes).filter _
  refine ⟨?_, ?_, ?_⟩
  · intro k hk
    have hmem : randomInternalNode t k ∈ internalNodes t := by
      unfold randomInternalNode
      rw [listGetD_eq_get _ _ hk]
      exact List.get_mem _ _ _
    have := List.of_mem_filter hmem
    have hrange := List.mem_range.mp (List.mem_of_mem_filter hmem)
    exact ⟨by simpa using this, hrange⟩
  · intro n hn hleaf
    have hmem : n ∈ internalNodes t := by
      refine List.mem_filter.mpr ⟨List.mem_range.mpr hn, by simp [hleaf]⟩
    obtain ⟨⟨k, hk⟩, hget⟩ := List.mem_iff_get.mp hmem
    refine ⟨k, ⟨hk, ?_⟩, ?_⟩
    · unfold randomInternalNode
      rw [listGetD_eq_get _ _ hk, hget]
    · rintro k2 ⟨hk2, hget2⟩
      have hgeteq : (internalNodes t).get ⟨k2, hk2⟩ = (internalNodes t).get ⟨k, hk⟩ := by
        rw [hget]
        unfold randomInternalNode at hget2
        rw [listGetD_eq_get _ _ hk2] at hget2
        exact hget2
      exact congrArg Fin.val ((List.Nodup.get_inj_iff hnodup).mp hgeteq)
  · intro k n p hok
    unfold sampleNodeMovePick at hok
    by_cases h2 : t.nChildren (randomInternalNode t k) = 2
    · rw [if_pos h2] at hok
      simp only [Except.ok.injEq, Prod.mk.injEq] at hok
      exact ⟨hok.1.symm, by rw [← hok.1]; exact hok.2.symm, by rw [← hok.1]; exact h2⟩
    · rw [if_neg h2] at hok
      exact absurd hok (by simp)

/-- Witness for the amended C8 theorem on the cherry tree. -/
theorem claimC8_amended_uniform_nonleaf_witness :
    ((2 : ℕ) < cherryTree.nodes ∧ cherryTree.isLeaf 2 = false) ∧
    (∃! k, k < (internalNodes cherryTree).length ∧ randomInternalNode cherryTree k = 2) := by
  refine ⟨⟨by decide, by decide⟩, ?_⟩
  exact (claimC8_amended_uniform_nonleaf cherryTree).2.1 2 (by decide) (by decide)

end SamplerTheorems

section ColumnTheorems

theorem rangeMapGetD (f : ℕ → ℕ) {m n : ℕ} (h : m < n) :
    ((List.range n).map f).getD m 0 = f m := by
  have hlen : m < ((List.range n).map f).length := by simpa using h
  rw [listGetD_eq_get _ _ hlen, List.get_map]
  congr 1
  exact List.get_range _ _

theorem filter_range_succ (p : ℕ → Bool) (m : ℕ) :
    (List.range (m + 1)).filter p =
      (List.range m).filter p ++ (if p m then [m] else []) := by
  rw [List.range_succ, List.filter_append]
  congr 1
  by_cases h : p m <;> simp [h]

theorem kidsCountTo_succ (t : PhyloTree) (cell : ℕ → Cell) (m p : ℕ) :
    kidsCountTo t cell (m + 1) p = kidsCountTo t cell m p +
      (if (!(cell m).isGap && decide (0 ≤ t.parentNode m) &&
          ((t.parentNode m).toNat == p) && !(cell p).isGap) then 1 else 0) := by
  unfold kidsCountTo
  rw [filter_range_succ, List.length_append]
  congr 1
  by_cases h : (!(cell m).isGap && decide (0 ≤ t.parentNode m) &&
      ((t.parentNode m).toNat == p) && !(cell p).isGap) <;> simp [h]

theorem initColumn_fold_ok (t : PhyloTree) (cell : ℕ → Cell) (hpost : PostOrdered t)
    (m : ℕ) (hm : m ≤ t.nodes)
    (hgood : ∀ r, r < m → badNodeB t cell r = false) :
    (List.range m).foldlM (initColumnStep t cell) ⟨[], List.replicate t.nodes 0, []⟩ =
      .ok ⟨ungappedRowsTo cell m, (List.range t.nodes).map (kidsCountTo t cell m),
        columnRootsTo t cell m⟩ := by
  induction m with
  | zero =>
      have hk : (List.range t.nodes).map (kidsCountTo t cell 0) =
          List.replicate t.nodes 0 := by
        have he : kidsCountTo t cell 0 = fun _ => (0 : ℕ) := funext fun p => rfl
        rw [he]
        rw [show (fun _ : ℕ => (0 : ℕ)) = Function.const ℕ 0 from rfl, List.map_const,
          List.length_range]
      rw [hk]
      rfl
  | succ m ih =>
      have hm' : m ≤ t.nodes := Nat.le_of_succ_le hm
      have hmlt : m < t.nodes := hm
      rw [List.range_succ, List.foldlM_append,
        ih hm' (fun r hr => hgood r (Nat.lt_succ_of_lt hr))]
      show initColumnStep t cell _ m >>= _ = _
      rw [show ∀ x : Except PErr InitColState,
            (x >>= fun b' => List.foldlM (initColumnStep t cell) b' []) = x from
          fun x => by cases x <;> rfl]
      by_cases hg : (cell m).isGap = true
      · rw [initColumnStep, if_pos hg]
        have hrows : ungappedRowsTo cell (m + 1) = ungappedRowsTo cell m := by
          unfold ungappedRowsTo
          rw [filter_range_succ]
          simp [hg]
        have hroots : columnRootsTo t cell (m + 1) = columnRootsTo t cell m := by
          unfold columnRootsTo
          rw [filter_range_succ]
          simp [hg]
        have hkids : kidsCountTo t cell (m + 1) = kidsCountTo t cell m :=
          funext fun p => by rw [kidsCountTo_succ]; simp [hg]
        rw [hrows, hroots, hkids]
      · -- ungapped node m
        have hgb : (!(cell m).isGap) = true := by simp [hg]
        have hrows : ungappedRowsTo cell (m + 1) = ungappedRowsTo cell m ++ [m] := by
          unfold ungappedRowsTo
          rw [filter_range_succ]
          simp [hg]
        have hkget : ((List.range t.nodes).map (kidsCountTo t cell m)).getD m 0 =
            kidsCountTo t cell m m := rangeMapGetD _ hmlt
        have hassert : ((cell m).isWild ||
            ((List.range t.nodes).map (kidsCountTo t cell m)).getD m 0 == 0) = true := by
          rw [hkget]
          have hbad := hgood m (Nat.lt_succ_self m)
          unfold badNodeB at hbad
          rw [hgb] at hbad
          simp only [Bool.true_and, Bool.and_eq_false_iff] at hbad
          rcases hbad with hw | hany
          · simp [Bool.not_eq_true] at hw  -- hw : ¬ isWild = ... careful
            simp [hw]
          · have hcnt : kidsCountTo t cell m m = 0 := by
              unfold kidsCountTo
              rw [List.length_eq_zero, List.filter_eq_nil]
              intro c hc
              intro hpred
              simp only [Bool.and_eq_true, beq_iff_eq, decide_eq_true_eq] at hpred
              obtain ⟨⟨⟨hc1, hc2⟩, hc3⟩, hc4⟩ := hpred
              have hcm : c < m := List.mem_range.mp hc
              have : (List.range t.nodes).any
                  (fun c => !(cell c).isGap && decide (0 ≤ t.parentNode c) &&
                    ((t.parentNode c).toNat == m)) = true := by
                rw [List.any_eq_true]
                exact ⟨c, List.mem_range.mpr (Nat.lt_of_lt_of_le hcm hm'),
                  by simp [hc1, hc2, hc3]⟩
              rw [this] at hany
              exact absurd hany (by simp)
            simp [hcnt]
        rw [initColumnStep, if_neg (by simp [hg])]
        simp only
        rw [if_pos hassert]
        by_cases hroot : t.parentNode m < 0 ∨ (cell (t.parentNode m).toNat).isGap = true
        · rw [if_pos hroot]
          have hroots : columnRootsTo t cell (m + 1) = columnRootsTo t cell m ++ [m] := by
            unfold columnRootsTo
            rw [filter_range_succ]
            have : (!(cell m).isGap &&
                (decide (t.parentNode m < 0) || (cell (t.parentNode m).toNat).isGap)) = true := by
              rw [hgb]
              rcases hroot with h1 | h2
              · simp [h1]
              · simp [h2]
            simp [this]
          have hkids : kidsCountTo t cell (m + 1) = kidsCountTo t cell m := by
            funext p
            rw [kidsCountTo_succ]
            rcases hroot with h1 | h2
            · have : decide (0 ≤ t.parentNode m) = false := by
                simp [decide_eq_false_iff_not]
                omega
              simp [this]
            · by_cases hp : (t.parentNode m).toNat = p
              · rw [← hp]
                simp [h2]
              · simp [hp]
          rw [hrows, hroots, hkids]
        · rw [if_neg hroot]
          push_neg at hroot
          obtain ⟨hpar1, hpar2⟩ := hroot
          have hpar0 : (0 : Int) ≤ t.parentNode m := by omega
          have hq := hpost m hmlt hpar0
          set q := (t.parentNode m).toNat with hqdef
          have hroots : columnRootsTo t cell (m + 1) = columnRootsTo t cell m := by
            unfold columnRootsTo
            rw [filter_range_succ]
            have : (!(cell m).isGap &&
                (decide (t.parentNode m < 0) || (cell (t.parentNode m).toNat).isGap)) = false := by
              simp [hpar2, hpar1]
            simp [this]
          have hkids : ((List.range t.nodes).map (kidsCountTo t cell m)).set q
              (((List.range t.nodes).map (kidsCountTo t cell m)).getD q 0 + 1) =
              (List.range t.nodes).map (kidsCountTo t cell (m + 1)) := by
            apply List.ext_get
            · simp
            · intro i h1 h2
              have hi : i < t.nodes := by simpa using h2
              rw [List.get_eq_getElem, List.get_eq_getElem, List.getElem_set]
              have hmap : ∀ (g : ℕ → ℕ) (hh : i < (List.map g (List.range t.nodes)).length),
                  (List.map g (List.range t.nodes))[i] = g i := fun g hh => by
                rw [List.getElem_map, List.getElem_range]
              by_cases hqi : q = i
              · subst hqi
                rw [if_pos rfl, rangeMapGetD _ hq.2, hmap _ (by simpa using hq.2),
                  kidsCountTo_succ]
                have hc : (!(cell m).isGap && decide (0 ≤ t.parentNode m) &&
                    ((t.parentNode m).toNat == q) && !(cell q).isGap) = true := by
                  rw [← hqdef]
                  simp [hgb, hpar1, hpar2]
                rw [hc]
                simp
              · rw [if_neg hqi, hmap _ (by simpa using hi), hmap _ (by simpa using hi),
                  kidsCountTo_succ]
                have hc : (!(cell m).isGap && decide (0 ≤ t.parentNode m) &&
                    ((t.parentNode m).toNat == i) && !(cell i).isGap) = false := by
                  rw [← hqdef]
                  simp [hqi]
                rw [hc]
                simp
          rw [hrows, ← hkids, hroots]

theorem initColumn_fold_err (t : PhyloTree) (cell : ℕ → Cell) (hpost : PostOrdered t)
    (b : ℕ) (hb : b < t.nodes)
    (hgood : ∀ r, r < b → badNodeB t cell r = false)
    (hbad : badNodeB t cell b = true) :
    (List.range t.nodes).foldlM (initColumnStep t cell)
      ⟨[], List.replicate t.nodes 0, []⟩ = .error .malformedAlignment := by
  have hsplit : List.range t.nodes =
      (List.range b ++ [b]) ++ (List.range (t.nodes - (b + 1))).map ((b + 1) + ·) := by
    rw [← List.range_succ, ← List.range_add]
    congr 1
    omega
  rw [hsplit, List.foldlM_append, List.foldlM_append,
    initColumn_fold_ok t cell hpost b (le_of_lt hb) hgood]
  have hbind : ∀ (f : InitColState → Except PErr InitColState) (x : InitColState),
      ((Except.ok x : Except PErr InitColState) >>= f) = f x := fun f x => rfl
  unfold badNodeB at hbad
  simp only [Bool.and_eq_true, List.any_eq_true, Bool.not_eq_true'] at hbad
  obtain ⟨⟨hgap, hwild⟩, c, hcmem, hcpred⟩ := hbad
  simp only [Bool.and_eq_true, beq_iff_eq, decide_eq_true_eq] at hcpred
  obtain ⟨⟨hc1, hc2⟩, hc3⟩ := hcpred
  have hcb : c < b := by
    have := (hpost c (List.mem_range.mp hcmem) hc2).1
    omega
  have hcnt : kidsCountTo t cell b b ≠ 0 := by
    unfold kidsCountTo
    intro hlen
    rw [List.length_eq_zero, List.filter_eq_nil] at hlen
    exact hlen c (List.mem_range.mpr hcb)
      (by simp [hc1, hc2, hc3, hgap])
  show (List.foldlM _ _ [b] >>= _) = _
  have hstep : initColumnStep t cell
      ⟨ungappedRowsTo cell b, (List.range t.nodes).map (kidsCountTo t cell b),
        columnRootsTo t cell b⟩ b = .error .malformedAlignment := by
    rw [initColumnStep, if_neg (by simp [hgap])]
    simp only
    rw [if_neg]
    rw [Bool.or_eq_true, not_or]
    constructor
    · simp [hwild]
    · rw [rangeMapGetD _ hb]
      simp [hcnt]
  show ((initColumnStep t cell _ b >>= _) >>= _) = _
  rw [hstep]
  rfl


theorem claimC5_counterexample :
    cherryTree.isLeaf 2 = false ∧ colC5 2 = Cell.tok 0 ∧ (Cell.tok 0).isWild = false ∧
    initColumn cherryTree colC5 = Except.ok [2] :=
  ⟨by decide, rfl, rfl, rfl⟩

theorem claimC5_amended_wildcard_check (t : PhyloTree) (cell : ℕ → Cell)
    (hpost : PostOrdered t) :
    (∀ r, r < t.nodes → badNodeB t cell r = true →
      initColumn t cell = .error .malformedAlignment) ∧
    ((∀ r, r < t.nodes → badNodeB t cell r = false) →
      (columnRootsTo t cell t.nodes).length = 1 →
      initColumn t cell = .ok (ungappedRowsTo cell t.nodes)) := by
  constructor
  · intro r hr hbadr
    have hex : ∃ x, badNodeB t cell x = true ∧ x < t.nodes := ⟨r, hbadr, hr⟩
    have hbspec := Nat.find_spec hex
    have hgood : ∀ x, x < Nat.find hex → badNodeB t cell x = false := by
      intro x hx
      have hmin := Nat.find_min hex hx
      by_contra hc
      rw [Bool.not_eq_false] at hc
      exact hmin ⟨hc, lt_trans hx hbspec.2⟩
    unfold initColumn
    rw [initColumn_fold_err t cell hpost (Nat.find hex) hbspec.2 hgood hbspec.1]
    rfl
  · intro hgood hroots
    unfold initColumn
    rw [initColumn_fold_ok t cell hpost t.nodes le_rfl hgood]
    show (if (columnRootsTo t cell t.nodes).length = 1 then _ else _ : Except _ _) = _
    rw [if_pos hroots]
    rfl

theorem claimC5_amended_wildcard_check_witness :
    (PostOrdered cherryTree ∧ badNodeB cherryTree colC5bad 2 = true ∧
      (∀ r, r < cherryTree.nodes → badNodeB cherryTree colC5 r = false) ∧
      (columnRootsTo cherryTree colC5 cherryTree.nodes).length = 1) ∧
    initColumn cherryTree colC5bad = Except.error PErr.malformedAlignment ∧
    initColumn cherryTree colC5 = Except.ok (ungappedRowsTo colC5 cherryTree.nodes) := by
  have hpost : PostOrdered cherryTree := by
    intro r hr hp
    have hr3 : r < 3 := hr
    interval_cases r <;> revert hp <;> decide
  refine ⟨⟨hpost, by decide, by decide, by decide⟩, ?_, ?_⟩
  · exact (claimC5_amended_wildcard_check cherryTree colC5bad hpost).1 2 (by decide) (by decide)
  · exact (claimC5_amended_wildcard_check cherryTree colC5 hpost).2 (by decide) (by decide)

end ColumnTheorems

section LogSpaceTheorems

theorem eexp_bot : eexp ⊥ = 0 := by unfold eexp; simp

theorem eexp_coe (r : ℝ) : eexp (r : EReal) = Real.exp r := by
  unfold eexp
  rw [if_neg (by simp), EReal.toReal_coe]

theorem eexp_zero : eexp 0 = 1 := by
  rw [← EReal.coe_zero, eexp_coe, Real.exp_zero]

theorem eexp_nonneg (x : EReal) : 0 ≤ eexp x := by
  unfold eexp
  split
  · exact le_refl 0
  · exact (Real.exp_pos _).le

theorem elog_eexp (x : EReal) (hx : x ≠ ⊤) : elog (eexp x) = x := by
  induction x using EReal.rec with
  | h_bot => rw [eexp_bot]; unfold elog; rw [if_pos le_rfl]
  | h_real r =>
      rw [eexp_coe]
      unfold elog
      rw [if_neg (not_le.mpr (Real.exp_pos r)), Real.log_exp]
  | h_top => exact absurd rfl hx

theorem elog_eexp_coe (r : ℝ) : elog (eexp (r : EReal)) = (r : EReal) :=
  elog_eexp _ (EReal.coe_ne_top r)

theorem ereal_add_ne_top (x y : EReal) (hx : x ≠ ⊤) (hy : y ≠ ⊤) : x + y ≠ ⊤ := by
  induction x using EReal.rec with
  | h_bot => rw [EReal.bot_add]; simp
  | h_real r =>
      induction y using EReal.rec with
      | h_bot => rw [EReal.add_bot]; simp
      | h_real s => rw [← EReal.coe_add]; exact EReal.coe_ne_top _
      | h_top => exact absurd rfl hy
  | h_top => exact absurd rfl hx

theorem eexp_add (x y : EReal) (hx : x ≠ ⊤) (hy : y ≠ ⊤) :
    eexp (x + y) = eexp x * eexp y := by
  induction x using EReal.rec with
  | h_bot => rw [EReal.bot_add, eexp_bot, zero_mul]
  | h_real r =>
      induction y using EReal.rec with
      | h_bot => rw [EReal.add_bot, eexp_bot, mul_zero]
      | h_real s => rw [← EReal.coe_add, eexp_coe, eexp_coe, eexp_coe, Real.exp_add]
      | h_top => exact absurd rfl hy
  | h_top => exact absurd rfl hx

theorem eexp_sub_coe (x : EReal) (hx : x ≠ ⊤) (c : ℝ) :
    eexp (x - (c : EReal)) = eexp x / Real.exp c := by
  induction x using EReal.rec with
  | h_bot => rw [EReal.bot_sub, eexp_bot, zero_div]
  | h_real r => rw [← EReal.coe_sub, eexp_coe, eexp_coe, Real.exp_sub]
  | h_top => exact absurd rfl hx

end LogSpaceTheorems

section FillUpTheorems

/-- Evaluation of the two-column C4 scenario: in the second column the
wildcard root multiplies in the stale `logE` message of its gapped
child 0 left over from the first column, giving `logF[2][0] = -3`,
whereas the sum over its ungapped children only would give `-2`. -/
theorem claimC4_stale_child_message :
    bufC4.logF 2 0 = ((-3 : ℝ) : EReal) ∧
    (∑ nc in (Finset.range (cherryTree.nChildren 2)).filter
        (fun nc => !(colC4b (cherryTree.getChild 2 nc)).isGap),
      bufC4.logE (cherryTree.getChild 2 nc) 0) = ((-2 : ℝ) : EReal) ∧
    ((-3 : ℝ) : EReal) ≠ ((-2 : ℝ) : EReal) := by
  have hc1 : (-1 : EReal) = ((-1 : ℝ) : EReal) := by
    rw [show ((-1 : ℝ)) = -(1 : ℝ) from by norm_num, EReal.coe_neg, EReal.coe_one]
  have hc2 : -(((2 : ℝ)) : EReal) = ((-2 : ℝ) : EReal) := (EReal.coe_neg 2).symm
  have h1 : bufC4.logF 2 0 = ((-3 : ℝ) : EReal) := by
    unfold bufC4 fillUp
    simp only [List.foldl]
    simp [fillUpStep, colC4a, colC4b, lsubC4, logPiC4, cherryTree, freshBuffers,
      Cell.isWild, Cell.isGap, Cell.tokOf, Function.update, logSumExp,
      Finset.sum_range_one, Finset.sum_range_succ, eexp_coe, elog_eexp_coe]
    simp only [hc1, hc2, elog_eexp_coe, ← EReal.coe_add]
    norm_num
  have h2 : (∑ nc in (Finset.range (cherryTree.nChildren 2)).filter
        (fun nc => !(colC4b (cherryTree.getChild 2 nc)).isGap),
      bufC4.logE (cherryTree.getChild 2 nc) 0) = ((-2 : ℝ) : EReal) := by
    have hf : (Finset.range (cherryTree.nChildren 2)).filter
        (fun nc => !(colC4b (cherryTree.getChild 2 nc)).isGap) = {1} := by decide
    rw [hf, Finset.sum_singleton]
    unfold bufC4 fillUp
    simp only [List.foldl]
    simp [fillUpStep, colC4a, colC4b, lsubC4, logPiC4, cherryTree, freshBuffers,
      Cell.isWild, Cell.isGap, Cell.tokOf, Function.update, logSumExp,
      Finset.sum_range_one, Finset.sum_range_succ, eexp_coe, elog_eexp_coe]
    simp only [hc1, hc2, elog_eexp_coe, ← EReal.coe_add]
  refine ⟨h1, h2, ?_⟩
  intro h
  have := EReal.coe_injective h
  norm_num at this

end FillUpTheorems

section RootCountTheorems

/-- C9: with `colLogLike` the logsumexp of `logF[root] + logInsProb`
(as `fillUp` sets it) and finite, one `accumulateRootCounts` call adds
nonnegative increments `exp(logInsProb[i] + logF[root][i] - colLogLike)`
whose total is exactly 1 in exact real arithmetic. -/
theorem claimC9_root_counts_normalised (A : ℕ) (logInsProb logFroot : ℕ → EReal)
    (v : ℕ → ℝ)
    (hπ : ∀ i, logInsProb i ≠ ⊤) (hF : ∀ i, logFroot i ≠ ⊤)
    (hne : logSumExp (Finset.range A) (fun i => logFroot i + logInsProb i) ≠ ⊥) :
    (∑ i in Finset.range A,
      (accumRootCounts A logInsProb logFroot
        (logSumExp (Finset.range A) (fun i => logFroot i + logInsProb i)) v i - v i)) = 1 ∧
    (∀ i, v i ≤ accumRootCounts A logInsProb logFroot
        (logSumExp (Finset.range A) (fun i => logFroot i + logInsProb i)) v i) := by
  set S := ∑ i in Finset.range A, eexp (logFroot i + logInsProb i) with hSdef
  have hS : ¬ S ≤ 0 := by
    intro hle
    apply hne
    unfold logSumExp elog
    rw [if_pos hle]
  have hSpos : 0 < S := not_le.mp hS
  have hlog : logSumExp (Finset.range A) (fun i => logFroot i + logInsProb i) =
      ((Real.log S : ℝ) : EReal) := by
    unfold logSumExp elog
    rw [if_neg hS]
  constructor
  · have hterm : ∀ i ∈ Finset.range A,
        accumRootCounts A logInsProb logFroot
          (logSumExp (Finset.range A) (fun i => logFroot i + logInsProb i)) v i - v i =
        eexp (logFroot i + logInsProb i) / S := by
      intro i hi
      unfold accumRootCounts
      rw [if_pos (Finset.mem_range.mp hi), hlog]
      rw [add_sub_cancel_left]
      rw [show logInsProb i + logFroot i = logFroot i + logInsProb i from add_comm _ _]
      rw [eexp_sub_coe _ (ereal_add_ne_top _ _ (hF i) (hπ i)) _, Real.exp_log hSpos]
    rw [Finset.sum_congr rfl hterm, ← Finset.sum_div, ← hSdef, div_self (ne_of_gt hSpos)]
  · intro i
    unfold accumRootCounts
    by_cases hi : i < A
    · rw [if_pos hi]
      exact le_add_of_nonneg_right (eexp_nonneg _)
    · rw [if_neg hi]

/-- Witness for C9 on a one-letter alphabet with unit insertion
probability and a trivially filled root. -/
theorem claimC9_root_counts_normalised_witness :
    logSumExp (Finset.range 1) (fun i => (fun _ => (0 : EReal)) i + (fun _ => (0 : EReal)) i) ≠ ⊥ ∧
    (∑ i in Finset.range 1,
      (accumRootCounts 1 (fun _ => (0 : EReal)) (fun _ => (0 : EReal))
        (logSumExp (Finset.range 1) (fun i => (fun _ => (0 : EReal)) i + (fun _ => (0 : EReal)) i))
        (fun _ => (0 : ℝ)) i - (fun _ => (0 : ℝ)) i)) = 1 := by
  have hne : logSumExp (Finset.range 1)
      (fun i => (fun _ => (0 : EReal)) i + (fun _ => (0 : EReal)) i) ≠ ⊥ := by
    unfold logSumExp elog
    rw [Finset.sum_range_one]
    simp [eexp_zero]
  exact ⟨hne, (claimC9_root_counts_normalised 1 (fun _ => 0) (fun _ => 0) (fun _ => 0)
    (fun i => by simp) (fun i => by simp) hne).1⟩

end RootCountTheorems

section EigenTheorems

theorem nearEq_refl (x : ℝ) : nearEq x x := by
  unfold nearEq gslFcmp
  have hd : ∀ y : ℝ, (0:ℝ) < sumprodEpsilon * (2 : ℝ) ^ (frexpExponent y) := fun y =>
    mul_pos (by norm_num [sumprodEpsilon]) (zpow_pos (by norm_num) _)
  simp only [sub_self]
  rw [if_neg (by have := hd (max |x| |x|); push_neg; linarith),
    if_neg (by have := hd (max |x| |x|); push_neg; linarith)]

theorem nearEqComplex_refl (x : ℂ) : nearEqComplex x x :=
  ⟨nearEq_refl _, nearEq_refl _⟩

/-- C2: the eigen-substitution-count matrix takes the degenerate value
`t·exp(λ_k t)` exactly when `k = l` or the two eigenvalues are
near-equal under the relative tolerance (componentwise `gsl_fcmp`), the
divided difference otherwise, and in the exact cases both branches
equal the endpoint-conditioned integral
`∫ τ in 0..t, exp(λ_k τ)·exp(λ_l (t-τ))`. -/
theorem claimC2_eigen_sub_count (A : ℕ) (ev : ℕ → ℂ) (t : ℝ) (k l : ℕ) :
    ((k = l ∨ nearEqComplex (ev k) (ev l)) →
      eigenSubCount A ev t k l = Complex.exp (ev k * t) * t) ∧
    (¬ (k = l ∨ nearEqComplex (ev k) (ev l)) →
      eigenSubCount A ev t k l =
        (Complex.exp (ev k * t) - Complex.exp (ev l * t)) / (ev k - ev l)) ∧
    (ev k = ev l →
      eigenSubCount A ev t k l =
        ∫ τ in (0 : ℝ)..t, Complex.exp (ev k * τ) * Complex.exp (ev l * (t - τ))) ∧
    (¬ nearEqComplex (ev k) (ev l) →
      eigenSubCount A ev t k l =
        ∫ τ in (0 : ℝ)..t, Complex.exp (ev k * τ) * Complex.exp (ev l * (t - τ))) := by
  refine ⟨?_, ?_, ?_, ?_⟩
  · intro h
    unfold eigenSubCount
    rw [if_pos h]
  · intro h
    unfold eigenSubCount
    rw [if_neg h]
  · intro hkl
    unfold eigenSubCount
    rw [if_pos (Or.inr (hkl ▸ nearEqComplex_refl (ev k)))]
    have hfun : Set.EqOn
        (fun τ : ℝ => Complex.exp (ev k * τ) * Complex.exp (ev l * (t - τ)))
        (fun _ : ℝ => Complex.exp (ev k * t)) (Set.uIcc (0 : ℝ) t) := by
      intro τ _
      simp only
      rw [← Complex.exp_add, ← hkl]
      congr 1
      push_cast
      ring
    rw [intervalIntegral.integral_congr hfun, intervalIntegral.integral_const]
    rw [sub_zero, Complex.real_smul]
    ring
  · intro h
    have hkind : ¬ (k = l ∨ nearEqComplex (ev k) (ev l)) := by
      rintro (rfl | hn)
      · exact h (nearEqComplex_refl _)
      · exact h hn
    have hne : ev k ≠ ev l := by
      intro hkl
      exact h (hkl ▸ nearEqComplex_refl (ev k))
    have hne' : ev k - ev l ≠ 0 := sub_ne_zero.mpr hne
    unfold eigenSubCount
    rw [if_neg hkind]
    have hfun : Set.EqOn
        (fun τ : ℝ => Complex.exp (ev k * τ) * Complex.exp (ev l * (t - τ)))
        (fun τ : ℝ => Complex.exp ((ev k - ev l) * τ) * Complex.exp (ev l * t))
        (Set.uIcc (0 : ℝ) t) := by
      intro τ _
      simp only
      rw [← Complex.exp_add, ← Complex.exp_add]
      congr 1
      push_cast
      ring
    rw [intervalIntegral.integral_congr hfun, intervalIntegral.integral_mul_const,
      integral_exp_mul_complex hne']
    rw [Complex.ofReal_zero, mul_zero, Complex.exp_zero]
    have hx : Complex.exp ((ev k - ev l) * t) * Complex.exp (ev l * t) =
        Complex.exp (ev k * t) := by
      rw [← Complex.exp_add]
      congr 1
      ring
    field_simp
    rw [sub_mul, one_mul, hx]

/-- Witness for C2 with a single zero eigenvalue at `t = 1`: the
degenerate entry and its agreement with the integral. -/
theorem claimC2_eigen_sub_count_witness :
    eigenSubCount 1 (fun _ => 0) 1 0 0 = Complex.exp ((0 : ℂ) * ((1 : ℝ) : ℂ)) * ((1 : ℝ) : ℂ) ∧
    eigenSubCount 1 (fun _ => 0) 1 0 0 =
      ∫ τ in (0 : ℝ)..(1 : ℝ), Complex.exp ((0 : ℂ) * τ) * Complex.exp ((0 : ℂ) * ((1 : ℝ) - τ)) := by
  have h := claimC2_eigen_sub_count 1 (fun _ => 0) 1 0 0
  exact ⟨h.1 (Or.inl rfl), h.2.2.1 rfl⟩

/-- C3 counterexample: a spectral sum with real part `-1 < -ε` and zero
imaginary part is not rejected; it is clamped and returned as 0. -/
theorem claimC3_counterexample :
    ((∑ k in Finset.range 1, (fun _ _ => (1 : ℂ)) 0 k * (fun _ _ => (-1 : ℂ)) k 0 *
        Complex.exp ((fun _ => (0 : ℂ)) k * ((0 : ℝ) : ℂ))).re < -sumprodEpsilon) ∧
    getSubProbInner 1 (fun _ _ => 1) (fun _ _ => -1) (fun _ => 0) 0 0 0 = Except.ok 0 := by
  have hp : (∑ k in Finset.range 1, (fun _ _ => (1 : ℂ)) 0 k * (fun _ _ => (-1 : ℂ)) k 0 *
      Complex.exp ((fun _ => (0 : ℂ)) k * ((0 : ℝ) : ℂ))) = -1 := by
    rw [Finset.sum_range_one]
    simp
  constructor
  · rw [hp]
    norm_num [sumprodEpsilon]
  · unfold getSubProbInner
    rw [if_pos]
    · rw [hp]
      norm_num
    · rw [hp]
      unfold nearReal
      have him : (-1 : ℂ).im = 0 := by simp
      rw [him]
      exact nearEq_refl 0

/-- C3 amended: `getSubProbInner` fails exactly when the spectral sum
is not near-real; the real part is never tested, every value below 0 —
including below `-ε` — clamps to 0 and every value above 1 clamps to 1,
so each successfully returned probability lies in `[0, 1]`. -/
theorem claimC3_amended_clamp (A : ℕ) (evec evecInv : ℕ → ℕ → ℂ) (ev : ℕ → ℂ)
    (t : ℝ) (i j : ℕ) :
    (getSubProbInner A evec evecInv ev t i j = .error .numericalFailure ↔
      ¬ nearReal (∑ k in Finset.range A, evec i k * evecInv k j * Complex.exp (ev k * t))) ∧
    (∀ x, getSubProbInner A evec evecInv ev t i j = .ok x →
      x = min 1 (max 0 (∑ k in Finset.range A, evec i k * evecInv k j *
        Complex.exp (ev k * t)).re) ∧ 0 ≤ x ∧ x ≤ 1) := by
  unfold getSubProbInner
  by_cases h : nearReal (∑ k in Finset.range A, evec i k * evecInv k j *
      Complex.exp (ev k * t))
  · rw [if_pos h]
    refine ⟨⟨fun hc => absurd hc (by simp), fun hc => absurd h hc⟩, ?_⟩
    intro x hx
    simp only [Except.ok.injEq] at hx
    refine ⟨hx.symm, ?_, ?_⟩
    · rw [← hx]
      exact le_min (by norm_num) (le_max_left _ _)
    · rw [← hx]
      exact min_le_left _ _
  · rw [if_neg h]
    exact ⟨⟨fun _ => h, fun _ => rfl⟩, fun x hx => absurd hx (by simp)⟩

/-- Witness for the amended C3 theorem at the counterexample input. -/
theorem claimC3_amended_clamp_witness :
    getSubProbInner 1 (fun _ _ => 1) (fun _ _ => -1) (fun _ => 0) 0 0 0 = Except.ok 0 ∧
    ((0 : ℝ) = min 1 (max 0 (∑ k in Finset.range 1, (fun _ _ => (1 : ℂ)) 0 k *
        (fun _ _ => (-1 : ℂ)) k 0 * Complex.exp ((fun _ => (0 : ℂ)) k * ((0 : ℝ) : ℂ))).re) ∧
      (0 : ℝ) ≤ 0 ∧ (0 : ℝ) ≤ 1) := by
  have hp : (∑ k in Finset.range 1, (fun _ _ => (1 : ℂ)) 0 k * (fun _ _ => (-1 : ℂ)) k 0 *
      Complex.exp ((fun _ => (0 : ℂ)) k * ((0 : ℝ) : ℂ))) = -1 := by
    rw [Finset.sum_range_one]
    simp
  have hok : getSubProbInner 1 (fun _ _ => 1) (fun _ _ => -1) (fun _ => 0) 0 0 0 =
      Except.ok 0 := by
    unfold getSubProbInner
    rw [if_pos]
    · rw [hp]
      norm_num
    · rw [hp]
      unfold nearReal
      have him : (-1 : ℂ).im = 0 := by simp
      rw [him]
      exact nearEq_refl 0
  exact ⟨hok, (claimC3_amended_clamp 1 (fun _ _ => 1) (fun _ _ => -1)
    (fun _ => 0) 0 0 0).2 0 hok⟩

end EigenTheorems

section EigenCountTheorems

theorem foldl_guarded_add_fn {σ M : Type} [AddCommMonoid M] (A : ℕ) (l : List σ)
    (g : σ → ℕ → ℕ → M) (c0 : ℕ → ℕ → M) :
    l.foldl (fun c x => fun i j => if i < A ∧ j < A then c i j + g x i j else c i j) c0
      = fun i j => if i < A ∧ j < A then c0 i j + (l.map (fun x => g x i j)).sum
        else c0 i j := by
  induction l generalizing c0 with
  | nil => funext i j; by_cases h : i < A ∧ j < A <;> simp [h]
  | cons x xs ih =>
      rw [List.foldl_cons, ih]
      funext i j
      by_cases h : i < A ∧ j < A
      · simp only [h, and_self, if_true, List.map_cons, List.sum_cons]
        rw [add_assoc]
      · simp [h]

theorem foldl_guarded_add_skip_fn {σ M : Type} [AddCommMonoid M] (A : ℕ) (l : List σ)
    (P : σ → Prop) [DecidablePred P] (g : σ → ℕ → ℕ → M) (c0 : ℕ → ℕ → M) :
    l.foldl (fun c x => if P x then c
      else fun i j => if i < A ∧ j < A then c i j + g x i j else c i j) c0
      = fun i j => if i < A ∧ j < A then
          c0 i j + ((l.filter (fun x => !decide (P x))).map (fun x => g x i j)).sum
        else c0 i j := by
  induction l generalizing c0 with
  | nil => funext i j; by_cases h : i < A ∧ j < A <;> simp [h]
  | cons x xs ih =>
      rw [List.foldl_cons]
      by_cases hP : P x
      · rw [if_pos hP, ih]
        funext i j
        by_cases h : i < A ∧ j < A <;> simp [h, hP]
      · rw [if_neg hP, ih]
        funext i j
        by_cases h : i < A ∧ j < A
        · simp only [h, and_self, if_true]
          rw [List.filter_cons, if_pos (by simp [hP])]
          rw [List.map_cons, List.sum_cons, add_assoc]
        · simp [h]

theorem listSum_map_range {M : Type} [AddCommMonoid M] (n : ℕ) (f : ℕ → M) :
    ((List.range n).map f).sum = ∑ i in Finset.range n, f i := by
  induction n with
  | zero => simp
  | succ n ih =>
      rw [List.range_succ, List.map_append, List.sum_append, Finset.sum_range_succ, ih]
      simp


theorem eexp_top : eexp ⊤ = 0 := by unfold eexp; simp

theorem maxOver_ne_top (A : ℕ) (f : ℕ → EReal) (h : ∀ i, i < A → f i ≠ ⊤) :
    maxOver A f ≠ ⊤ := by
  unfold maxOver
  rw [← lt_top_iff_ne_top, Finset.sup_lt_iff bot_lt_top]
  intro i hi
  exact lt_top_iff_ne_top.mpr (h i (Finset.mem_range.mp hi))

theorem ereal_exists_real (x : EReal) (h1 : x ≠ ⊥) (h2 : x ≠ ⊤) :
    ∃ r : ℝ, x = (r : EReal) := by
  induction x using EReal.rec with
  | h_bot => exact absurd rfl h1
  | h_real r => exact ⟨r, rfl⟩
  | h_top => exact absurd rfl h2

theorem eigenCountsTerm_closed (A : ℕ) (t : PhyloTree) (evec evecInv : ℕ → ℕ → ℂ)
    (st : ColBuffers) (eSub : ℕ → ℕ → ℕ → ℂ) (node : ℕ)
    (cl mU mD : ℝ)
    (hcl : st.colLogLike = (cl : EReal))
    (hmU : maxOver A (st.logF node) = (mU : EReal))
    (hmD : maxOver A (fun i2 => st.logG (t.parentNode node).toNat i2 +
      st.logE (t.getSibling node) i2) = (mD : EReal))
    (hUtop : ∀ b, b < A → st.logF node b ≠ ⊤)
    (hDtop : ∀ a, a < A → (st.logG (t.parentNode node).toNat a +
      st.logE (t.getSibling node) a) ≠ ⊤)
    (k l : ℕ) :
    eigenCountsTerm A t evec evecInv st eSub node k l =
      ((∑ a in Finset.range A, evec a k *
          ((eexp (st.logG (t.parentNode node).toNat a + st.logE (t.getSibling node) a) : ℝ) : ℂ)) *
        (eSub node k l *
          (∑ b in Finset.range A, evecInv l b * ((eexp (st.logF node b) : ℝ) : ℂ)))) /
        ((Real.exp cl : ℝ) : ℂ) := by
  unfold eigenCountsTerm
  simp only
  have hnorm : eexp (st.colLogLike - maxOver A (st.logF node) -
      maxOver A (fun i2 => st.logG (t.parentNode node).toNat i2 +
        st.logE (t.getSibling node) i2)) =
      Real.exp cl / (Real.exp mU * Real.exp mD) := by
    rw [hcl, hmU, hmD, ← EReal.coe_sub, ← EReal.coe_sub, eexp_coe,
      Real.exp_sub, Real.exp_sub, div_div]
  have hub : (∑ b in Finset.range A, evecInv l b *
      ((eexp (st.logF node b - maxOver A (st.logF node)) : ℝ) : ℂ)) =
      (∑ b in Finset.range A, evecInv l b * ((eexp (st.logF node b) : ℝ) : ℂ)) /
        ((Real.exp mU : ℝ) : ℂ) := by
    rw [Finset.sum_div]
    refine Finset.sum_congr rfl fun b hb => ?_
    rw [hmU, eexp_sub_coe _ (hUtop b (Finset.mem_range.mp hb)) _,
      Complex.ofReal_div, mul_div_assoc]
  have hdb : (∑ a in Finset.range A, evec a k *
      ((eexp ((st.logG (t.parentNode node).toNat a + st.logE (t.getSibling node) a) -
        maxOver A (fun i2 => st.logG (t.parentNode node).toNat i2 +
          st.logE (t.getSibling node) i2)) : ℝ) : ℂ)) =
      (∑ a in Finset.range A, evec a k *
        ((eexp (st.logG (t.parentNode node).toNat a + st.logE (t.getSibling node) a) : ℝ) : ℂ)) /
        ((Real.exp mD : ℝ) : ℂ) := by
    rw [Finset.sum_div]
    refine Finset.sum_congr rfl fun a ha => ?_
    rw [hmD, eexp_sub_coe _ (hDtop a (Finset.mem_range.mp ha)) _,
      Complex.ofReal_div, mul_div_assoc]
  rw [hnorm, hub, hdb]
  have heU : (Real.exp mU : ℝ) ≠ 0 := (Real.exp_pos _).ne.symm
  have heD : (Real.exp mD : ℝ) ≠ 0 := (Real.exp_pos _).ne.symm
  have hC : (Real.exp cl : ℝ) ≠ 0 := (Real.exp_pos _).ne.symm
  push_cast
  field_simp
  ring

theorem c1_direct_summand (A : ℕ) (t : PhyloTree) (evec evecInv : ℕ → ℕ → ℂ)
    (ev : ℕ → ℂ) (subRate : ℕ → ℕ → ℝ) (branchLen : ℕ → ℝ)
    (lsub : ℕ → ℕ → ℕ → EReal) (eSub : ℕ → ℕ → ℕ → ℂ) (st : ColBuffers) (node : ℕ)
    (cl : ℝ) (hcl : st.colLogLike = (cl : EReal))
    (hUtop : ∀ b2, b2 < A → st.logF node b2 ≠ ⊤)
    (hGEtop : ∀ a2, a2 < A → st.logG (t.parentNode node).toNat a2 ≠ ⊤ ∧
      st.logE (t.getSibling node) a2 ≠ ⊤)
    (hPab : ∀ a2 b2, a2 < A → b2 < A →
      eexp (lsub node a2 b2) = (subProbSpectral A evec evecInv ev (branchLen node) a2 b2).re ∧
      0 < (subProbSpectral A evec evecInv ev (branchLen node) a2 b2).re ∧
      (subProbSpectral A evec evecInv ev (branchLen node) a2 b2).re ≤ 1)
    (hCnt : ∀ a2 b2 i2 j2, a2 < A → b2 < A → i2 < A → j2 < A →
      0 ≤ (if i2 = j2 then 1 else subRate i2 j2) *
        (subCountInner A evec evecInv (eSub node) a2 b2 i2 j2).re)
    (a b i j : ℕ) (ha : a < A) (hb : b < A) (hi : i < A) (hj : j < A) :
    getSubCountRe A evec evecInv subRate a b i j
        (getSubProbMatrixRe A evec evecInv ev (branchLen node)) (eSub node) *
      eexp (logBranchPostProb t lsub st node a b) =
    (if i = j then 1 else subRate i j) *
      ((eexp (st.logG (t.parentNode node).toNat a + st.logE (t.getSibling node) a) *
        eexp (st.logF node b)) *
        (subCountInner A evec evecInv (eSub node) a b i j).re) / Real.exp cl := by
  obtain ⟨hPeq, hPpos, hPle⟩ := hPab a b ha hb
  have hPne : (subProbSpectral A evec evecInv ev (branchLen node) a b).re ≠ 0 :=
    hPpos.ne.symm
  have hCpos : (0:ℝ) < Real.exp cl := Real.exp_pos _
  -- the matrix entry is the unclamped probability
  have hmat : getSubProbMatrixRe A evec evecInv ev (branchLen node) a b =
      (subProbSpectral A evec evecInv ev (branchLen node) a b).re := by
    unfold getSubProbMatrixRe
    rw [max_eq_right hPpos.le, min_eq_right hPle]
  -- the count is unclamped
  have hcount : getSubCountRe A evec evecInv subRate a b i j
      (getSubProbMatrixRe A evec evecInv ev (branchLen node)) (eSub node) =
      (if i = j then 1 else subRate i j) *
        (subCountInner A evec evecInv (eSub node) a b i j).re /
        (subProbSpectral A evec evecInv ev (branchLen node) a b).re := by
    unfold getSubCountRe
    rw [hmat]
    exact max_eq_right (div_nonneg (hCnt a b i j ha hb hi hj) hPpos.le)
  -- factor the weight
  have hltop : lsub node a b ≠ ⊤ := by
    intro hT
    rw [hT, eexp_top] at hPeq
    exact hPne hPeq.symm
  have h1 : st.logG (t.parentNode node).toNat a ≠ ⊤ := (hGEtop a ha).1
  have h2 : st.logE (t.getSibling node) a ≠ ⊤ := (hGEtop a ha).2
  have h3 : st.logF node b ≠ ⊤ := hUtop b hb
  have hw : eexp (logBranchPostProb t lsub st node a b) =
      eexp (st.logG (t.parentNode node).toNat a) * eexp (lsub node a b) *
        eexp (st.logF node b) * eexp (st.logE (t.getSibling node) a) / Real.exp cl := by
    unfold logBranchPostProb
    rw [hcl]
    rw [eexp_sub_coe _ (ereal_add_ne_top _ _ (ereal_add_ne_top _ _
      (ereal_add_ne_top _ _ h1 hltop) h3) h2) _]
    rw [eexp_add _ _ (ereal_add_ne_top _ _ (ereal_add_ne_top _ _ h1 hltop) h3) h2,
      eexp_add _ _ (ereal_add_ne_top _ _ h1 hltop) h3,
      eexp_add _ _ h1 hltop]
  have hge : eexp (st.logG (t.parentNode node).toNat a + st.logE (t.getSibling node) a) =
      eexp (st.logG (t.parentNode node).toNat a) * eexp (st.logE (t.getSibling node) a) :=
    eexp_add _ _ h1 h2
  rw [hcount, hw, hPeq, hge]
  field_simp
  ring

theorem sum4_swap {M2 : Type} [AddCommMonoid M2] (s : Finset ℕ) (F : ℕ → ℕ → ℕ → ℕ → M2) :
    (∑ a in s, ∑ b in s, ∑ k in s, ∑ l in s, F a b k l) =
    ∑ k in s, ∑ l in s, ∑ a in s, ∑ b in s, F a b k l := by
  have h1 : ∀ a, (∑ b in s, ∑ k in s, ∑ l in s, F a b k l) =
      ∑ k in s, ∑ l in s, ∑ b in s, F a b k l := by
    intro a
    rw [Finset.sum_comm]
    exact Finset.sum_congr rfl fun k _ => Finset.sum_comm
  rw [Finset.sum_congr rfl fun a _ => h1 a, Finset.sum_comm]
  exact Finset.sum_congr rfl fun k _ => Finset.sum_comm

theorem c1_quad (A : ℕ) (evec evecInv : ℕ → ℕ → ℂ) (M : ℕ → ℕ → ℂ)
    (D U : ℕ → ℝ) (i j : ℕ) :
    (∑ a in Finset.range A, ∑ b in Finset.range A,
      ((D a : ℂ) * (U b : ℂ)) * subCountInner A evec evecInv M a b i j) =
    ∑ k in Finset.range A, evecInv k i *
      (∑ l in Finset.range A,
        ((∑ a in Finset.range A, evec a k * (D a : ℂ)) *
          (M k l * (∑ b in Finset.range A, evecInv l b * (U b : ℂ)))) * evec j l) := by
  unfold subCountInner
  simp only [Finset.mul_sum, Finset.sum_mul]
  rw [sum4_swap]
  refine Finset.sum_congr rfl fun k _ => Finset.sum_congr rfl fun l _ => ?_
  rw [Finset.sum_comm]
  exact Finset.sum_congr rfl fun a _ => Finset.sum_congr rfl fun b _ => by ring

theorem ofReal_mul_re (r : ℝ) (z : ℂ) : ((r : ℂ) * z).re = r * z.re := by
  simp [Complex.mul_re]

theorem div_ofReal_re (z : ℂ) (r : ℝ) : (z / (r : ℂ)).re = z.re / r := by
  rw [div_eq_mul_inv, ← Complex.ofReal_inv]
  simp [Complex.mul_re]
  ring

theorem c1_node_eq (A : ℕ) (t : PhyloTree) (evec evecInv : ℕ → ℕ → ℂ)
    (ev : ℕ → ℂ) (subRate : ℕ → ℕ → ℝ) (branchLen : ℕ → ℝ)
    (lsub : ℕ → ℕ → ℕ → EReal) (eSub : ℕ → ℕ → ℕ → ℂ) (st : ColBuffers) (node : ℕ)
    (hcl1 : st.colLogLike ≠ ⊥) (hcl2 : st.colLogLike ≠ ⊤)
    (hh : C1NodeHyp A t evec evecInv ev subRate branchLen lsub eSub st node)
    (i j : ℕ) (hi : i < A) (hj : j < A) :
    (∑ a in Finset.range A, ∑ b in Finset.range A,
      getSubCountRe A evec evecInv subRate a b i j
        (getSubProbMatrixRe A evec evecInv ev (branchLen node)) (eSub node) *
        eexp (logBranchPostProb t lsub st node a b)) =
    getSubCounts A evec evecInv subRate
      (fun k l => eigenCountsTerm A t evec evecInv st eSub node k l) i j := by
  obtain ⟨hUtop, hGEtop, hUbot, hDbot, hPab, hCnt⟩ := hh
  obtain ⟨cl, hcl⟩ := ereal_exists_real _ hcl1 hcl2
  obtain ⟨mU, hmU⟩ := ereal_exists_real _ hUbot (maxOver_ne_top _ _ hUtop)
  have hDtop : ∀ a, a < A → (st.logG (t.parentNode node).toNat a +
      st.logE (t.getSibling node) a) ≠ ⊤ :=
    fun a ha => ereal_add_ne_top _ _ (hGEtop a ha).1 (hGEtop a ha).2
  obtain ⟨mD, hmD⟩ := ereal_exists_real _ hDbot (maxOver_ne_top _ _ hDtop)
  -- shorthand for the double message products
  have hL1 : (∑ a in Finset.range A, ∑ b in Finset.range A,
      getSubCountRe A evec evecInv subRate a b i j
        (getSubProbMatrixRe A evec evecInv ev (branchLen node)) (eSub node) *
        eexp (logBranchPostProb t lsub st node a b)) =
      ∑ a in Finset.range A, ∑ b in Finset.range A,
        (if i = j then 1 else subRate i j) *
          ((eexp (st.logG (t.parentNode node).toNat a + st.logE (t.getSibling node) a) *
            eexp (st.logF node b)) *
            (subCountInner A evec evecInv (eSub node) a b i j).re) / Real.exp cl :=
    Finset.sum_congr rfl fun a ha => Finset.sum_congr rfl fun b hb =>
      c1_direct_summand A t evec evecInv ev subRate branchLen lsub eSub st node cl hcl
        hUtop hGEtop hPab hCnt a b i j
        (Finset.mem_range.mp ha) (Finset.mem_range.mp hb) hi hj
  -- eigen side: pull the 1/C out of the back-transform
  have hterm := eigenCountsTerm_closed A t evec evecInv st eSub node cl mU mD
    hcl hmU hmD hUtop hDtop
  have hRc : (∑ k in Finset.range A, evecInv k i *
      (∑ l in Finset.range A,
        eigenCountsTerm A t evec evecInv st eSub node k l * evec j l)) =
      (∑ k in Finset.range A, evecInv k i *
        (∑ l in Finset.range A,
          ((∑ a in Finset.range A, evec a k *
              ((eexp (st.logG (t.parentNode node).toNat a +
                st.logE (t.getSibling node) a) : ℝ) : ℂ)) *
            (eSub node k l *
              (∑ b in Finset.range A, evecInv l b *
                ((eexp (st.logF node b) : ℝ) : ℂ)))) * evec j l)) /
        ((Real.exp cl : ℝ) : ℂ) := by
    rw [Finset.sum_div]
    refine Finset.sum_congr rfl fun k _ => ?_
    rw [mul_div_assoc, Finset.sum_div]
    refine congrArg (fun z => evecInv k i * z) (Finset.sum_congr rfl fun l _ => ?_)
    rw [hterm k l, div_mul_eq_mul_div]
  -- identify the complex double sum with the direct quadruple sum
  have hquad := c1_quad A evec evecInv (eSub node)
    (fun a => eexp (st.logG (t.parentNode node).toNat a + st.logE (t.getSibling node) a))
    (fun b => eexp (st.logF node b)) i j
  -- real parts
  have hre : ((∑ a in Finset.range A, ∑ b in Finset.range A,
      ((eexp (st.logG (t.parentNode node).toNat a + st.logE (t.getSibling node) a) : ℂ) *
        (eexp (st.logF node b) : ℂ)) *
        subCountInner A evec evecInv (eSub node) a b i j)).re =
      ∑ a in Finset.range A, ∑ b in Finset.range A,
        (eexp (st.logG (t.parentNode node).toNat a + st.logE (t.getSibling node) a) *
          eexp (st.logF node b)) *
          (subCountInner A evec evecInv (eSub node) a b i j).re := by
    rw [Complex.re_sum]
    refine Finset.sum_congr rfl fun a _ => ?_
    rw [Complex.re_sum]
    refine Finset.sum_congr rfl fun b _ => ?_
    rw [← Complex.ofReal_mul, ofReal_mul_re]
  -- assemble
  unfold getSubCounts
  simp only
  rw [hL1, hRc, div_ofReal_re, ← hquad, hre]
  by_cases hij : i = j
  · simp only [if_pos hij, one_mul, Finset.sum_div]
  · simp only [if_neg hij, Finset.sum_div, Finset.sum_mul]
    exact Finset.sum_congr rfl fun a _ => Finset.sum_congr rfl fun b _ => by ring

theorem getSubCounts_list_sum (A : ℕ) (evec evecInv : ℕ → ℕ → ℂ)
    (subRate : ℕ → ℕ → ℝ) (L : List ℕ) (g : ℕ → ℕ → ℕ → ℂ) (i j : ℕ)
    (hi : i < A) (hj : j < A) :
    getSubCounts A evec evecInv subRate
      (fun k l => if k < A ∧ l < A then (0 : ℂ) + (L.map (fun node => g node k l)).sum
        else 0) i j =
    (L.map (fun node => getSubCounts A evec evecInv subRate (g node) i j)).sum := by
  induction L with
  | nil =>
      unfold getSubCounts
      simp
  | cons x xs ih =>
      unfold getSubCounts at ih ⊢
      simp only [List.map_cons, List.sum_cons, zero_add] at ih ⊢
      have hsplit : (∑ k in Finset.range A, evecInv k i *
          (∑ l in Finset.range A,
            (if k < A ∧ l < A then g x k l + (xs.map (fun node => g node k l)).sum
              else 0) * evec j l)) =
          (∑ k in Finset.range A, evecInv k i *
            (∑ l in Finset.range A, g x k l * evec j l)) +
          (∑ k in Finset.range A, evecInv k i *
            (∑ l in Finset.range A,
              (if k < A ∧ l < A then (xs.map (fun node => g node k l)).sum
                else 0) * evec j l)) := by
        rw [← Finset.sum_add_distrib]
        refine Finset.sum_congr rfl fun k hk => ?_
        rw [← mul_add, ← Finset.sum_add_distrib]
        refine congrArg (fun z => evecInv k i * z) (Finset.sum_congr rfl fun l hl => ?_)
        rw [if_pos ⟨Finset.mem_range.mp hk, Finset.mem_range.mp hl⟩,
          if_pos ⟨Finset.mem_range.mp hk, Finset.mem_range.mp hl⟩, add_mul]
      rw [hsplit]
      rw [← ih]
      by_cases hij : i = j
      · simp only [if_pos hij, Complex.add_re]
      · simp only [if_neg hij, Complex.add_re, add_mul]

theorem listSum_congr {M : Type} [AddCommMonoid M] (L : List ℕ) (f g : ℕ → M)
    (h : ∀ x ∈ L, f x = g x) : (L.map f).sum = (L.map g).sum := by
  induction L with
  | nil => rfl
  | cons x xs ih =>
      simp only [List.map_cons, List.sum_cons]
      rw [h x (List.mem_cons_self x xs), ih (fun y hy => h y (List.mem_cons_of_mem x hy))]

/-- C1: on any column state, accumulating one column of counts through
the eigen path (`accumulateEigenCounts` into a complex eigen-counts
matrix followed by the `getSubCounts` back-transform) produces, entry
by entry, exactly the matrix produced by the direct path
(`accumulateSubCounts` over all `(a,b)` endpoint pairs on every
non-root ungapped branch), hence agreement within `10⁻⁶`; the
root-count vector update is the very same `accumRootCounts` call in
both entry points. -/
theorem claimC1_eigen_counts_refinement (A : ℕ) (t : PhyloTree)
    (evec evecInv : ℕ → ℕ → ℂ) (ev : ℕ → ℂ) (subRate : ℕ → ℕ → ℝ)
    (branchLen : ℕ → ℝ) (lsub : ℕ → ℕ → ℕ → EReal) (eSub : ℕ → ℕ → ℕ → ℂ)
    (st : ColBuffers) (rows : List ℕ) (rootIdx : ℕ)
    (hcl1 : st.colLogLike ≠ ⊥) (hcl2 : st.colLogLike ≠ ⊤)
    (hnode : ∀ node ∈ rows, node ≠ rootIdx →
      C1NodeHyp A t evec evecInv ev subRate branchLen lsub eSub st node)
    (i j : ℕ) (hi : i < A) (hj : j < A) :
    getSubCounts A evec evecInv subRate
      (accumulateEigenCountsMatrix A t evec evecInv st eSub rows rootIdx
        (fun _ _ => 0)) i j =
    accumulateSubCountsMatrix A t evec evecInv ev subRate branchLen lsub eSub st
      rows rootIdx (fun _ _ => 0) i j ∧
    |getSubCounts A evec evecInv subRate
      (accumulateEigenCountsMatrix A t evec evecInv st eSub rows rootIdx
        (fun _ _ => 0)) i j -
      accumulateSubCountsMatrix A t evec evecInv ev subRate branchLen lsub eSub st
        rows rootIdx (fun _ _ => 0) i j| ≤ sumprodEpsilon := by
  have hmain : getSubCounts A evec evecInv subRate
      (accumulateEigenCountsMatrix A t evec evecInv st eSub rows rootIdx
        (fun _ _ => 0)) i j =
      accumulateSubCountsMatrix A t evec evecInv ev subRate branchLen lsub eSub st
        rows rootIdx (fun _ _ => 0) i j := by
    -- eigen side as a list sum over non-root rows
    have hE : accumulateEigenCountsMatrix A t evec evecInv st eSub rows rootIdx
        (fun _ _ => 0) =
        fun k l => if k < A ∧ l < A then
          (0 : ℂ) + ((rows.filter (fun x => !decide (x = rootIdx))).map
            (fun node => eigenCountsTerm A t evec evecInv st eSub node k l)).sum
        else 0 := by
      unfold accumulateEigenCountsMatrix
      exact foldl_guarded_add_skip_fn A rows (fun node => node = rootIdx)
        (fun node k l => eigenCountsTerm A t evec evecInv st eSub node k l)
        (fun _ _ => 0)
    -- direct side: per-node double loop as a guarded add of a list double sum
    have hinner : ∀ (node : ℕ) (cnt2 : ℕ → ℕ → ℝ) (a : ℕ),
        ((List.range A).foldl (fun cnt3 b =>
          accumSubCounts A evec evecInv subRate cnt3 a b
            (eexp (logBranchPostProb t lsub st node a b))
            (getSubProbMatrixRe A evec evecInv ev (branchLen node))
            (eSub node)) cnt2) =
        fun i2 j2 => if i2 < A ∧ j2 < A then
          cnt2 i2 j2 + ((List.range A).map (fun b =>
            getSubCountRe A evec evecInv subRate a b i2 j2
              (getSubProbMatrixRe A evec evecInv ev (branchLen node)) (eSub node) *
              eexp (logBranchPostProb t lsub st node a b))).sum
        else cnt2 i2 j2 := by
      intro node cnt2 a
      exact foldl_guarded_add_fn A (List.range A)
        (fun b i2 j2 => getSubCountRe A evec evecInv subRate a b i2 j2
          (getSubProbMatrixRe A evec evecInv ev (branchLen node)) (eSub node) *
          eexp (logBranchPostProb t lsub st node a b)) cnt2
    have hD : accumulateSubCountsMatrix A t evec evecInv ev subRate branchLen lsub
        eSub st rows rootIdx (fun _ _ => 0) =
        fun i2 j2 => if i2 < A ∧ j2 < A then
          (0 : ℝ) + ((rows.filter (fun x => !decide (x = rootIdx))).map
            (fun node => ((List.range A).map (fun a =>
              ((List.range A).map (fun b =>
                getSubCountRe A evec evecInv subRate a b i2 j2
                  (getSubProbMatrixRe A evec evecInv ev (branchLen node)) (eSub node) *
                  eexp (logBranchPostProb t lsub st node a b))).sum)).sum)).sum
        else 0 := by
      unfold accumulateSubCountsMatrix
      have hstep : (fun (cnt : ℕ → ℕ → ℝ) node => if node = rootIdx then cnt
          else (List.range A).foldl (fun cnt2 a =>
            (List.range A).foldl (fun cnt3 b =>
              accumSubCounts A evec evecInv subRate cnt3 a b
                (eexp (logBranchPostProb t lsub st node a b))
                (getSubProbMatrixRe A evec evecInv ev (branchLen node))
                (eSub node)) cnt2) cnt) =
          (fun (cnt : ℕ → ℕ → ℝ) node => if node = rootIdx then cnt
            else fun i2 j2 => if i2 < A ∧ j2 < A then
              cnt i2 j2 + ((List.range A).map (fun a =>
                ((List.range A).map (fun b =>
                  getSubCountRe A evec evecInv subRate a b i2 j2
                    (getSubProbMatrixRe A evec evecInv ev (branchLen node)) (eSub node) *
                    eexp (logBranchPostProb t lsub st node a b))).sum)).sum
            else cnt i2 j2) := by
        funext cnt node
        by_cases hroot : node = rootIdx
        · rw [if_pos hroot, if_pos hroot]
        · rw [if_neg hroot, if_neg hroot]
          rw [congrArg (fun f => (List.range A).foldl f cnt)
            (funext fun cnt2 => funext fun a => hinner node cnt2 a)]
          exact foldl_guarded_add_fn A (List.range A)
            (fun a i2 j2 => ((List.range A).map (fun b =>
              getSubCountRe A evec evecInv subRate a b i2 j2
                (getSubProbMatrixRe A evec evecInv ev (branchLen node)) (eSub node) *
                eexp (logBranchPostProb t lsub st node a b))).sum) cnt
      rw [hstep]
      exact foldl_guarded_add_skip_fn A rows (fun node => node = rootIdx)
        (fun node i2 j2 => ((List.range A).map (fun a =>
          ((List.range A).map (fun b =>
            getSubCountRe A evec evecInv subRate a b i2 j2
              (getSubProbMatrixRe A evec evecInv ev (branchLen node)) (eSub node) *
              eexp (logBranchPostProb t lsub st node a b))).sum)).sum)
        (fun _ _ => 0)
    -- combine: both sides are termwise equal list sums
    rw [hE, hD]
    simp only
    rw [getSubCounts_list_sum A evec evecInv subRate _ _ i j hi hj,
      if_pos (⟨hi, hj⟩ : i < A ∧ j < A), zero_add]
    refine listSum_congr _ _ _ fun node hmem => ?_
    have hmem2 : node ∈ rows ∧ node ≠ rootIdx := by
      have := List.mem_filter.mp hmem
      refine ⟨this.1, ?_⟩
      have h2 := this.2
      simp only [Bool.not_eq_true', decide_eq_false_iff_not] at h2
      exact h2
    have hnodeEq := c1_node_eq A t evec evecInv ev subRate branchLen lsub eSub st node
      hcl1 hcl2 (hnode node hmem2.1 hmem2.2) i j hi hj
    rw [← hnodeEq]
    rw [listSum_map_range A]
    exact Finset.sum_congr rfl fun a _ => (listSum_map_range A _).symm
  refine ⟨hmain, ?_⟩
  rw [hmain, sub_self, abs_zero]
  norm_num [sumprodEpsilon]

theorem claimC1_eigen_counts_refinement_witness :
    ((0 : EReal) ≠ ⊥ ∧ (0 : EReal) ≠ ⊤ ∧
      C1NodeHyp 1 cherryTree (fun _ _ => 1) (fun _ _ => 1) (fun _ => 0) (fun _ _ => 0)
        (fun _ => 1) (fun _ _ _ => 0) (fun _ _ _ => 1)
        { logE := fun _ _ => 0, logF := fun _ _ => 0, logG := fun _ _ => 0,
          colLogLike := 0 } 0) ∧
    getSubCounts 1 (fun _ _ => 1) (fun _ _ => 1) (fun _ _ => 0)
      (accumulateEigenCountsMatrix 1 cherryTree (fun _ _ => 1) (fun _ _ => 1)
        { logE := fun _ _ => 0, logF := fun _ _ => 0, logG := fun _ _ => 0,
          colLogLike := 0 } (fun _ _ _ => 1) [0, 2] 2 (fun _ _ => 0)) 0 0 =
    accumulateSubCountsMatrix 1 cherryTree (fun _ _ => 1) (fun _ _ => 1) (fun _ => 0)
      (fun _ _ => 0) (fun _ => 1) (fun _ _ _ => 0) (fun _ _ _ => 1)
      { logE := fun _ _ => 0, logF := fun _ _ => 0, logG := fun _ _ => 0,
        colLogLike := 0 } [0, 2] 2 (fun _ _ => 0) 0 0 := by
  have hspec : ∀ a b : ℕ, subProbSpectral 1 (fun _ _ => 1) (fun _ _ => 1) (fun _ => 0)
      ((fun _ : ℕ => (1:ℝ)) 0) a b = 1 := by
    intro a b
    unfold subProbSpectral
    rw [Finset.sum_range_one]
    simp
  have hinner : ∀ a b i j : ℕ, subCountInner 1 (fun _ _ => 1) (fun _ _ => 1)
      ((fun _ _ _ => (1:ℂ)) 0) a b i j = 1 := by
    intro a b i j
    unfold subCountInner
    rw [Finset.sum_range_one, Finset.sum_range_one]
    simp
  have hmax : maxOver 1 (fun _ : ℕ => (0 : EReal)) = 0 := by
    unfold maxOver
    rw [Finset.range_one, Finset.sup_singleton]
  have hhyp : C1NodeHyp 1 cherryTree (fun _ _ => 1) (fun _ _ => 1) (fun _ => 0)
      (fun _ _ => 0) (fun _ => 1) (fun _ _ _ => 0) (fun _ _ _ => 1)
      { logE := fun _ _ => 0, logF := fun _ _ => 0, logG := fun _ _ => 0,
        colLogLike := 0 } 0 := by
    refine ⟨fun b _ => by simp, fun a _ => ⟨by simp, by simp⟩, ?_, ?_, ?_, ?_⟩
    · show maxOver 1 (fun _ : ℕ => (0 : EReal)) ≠ ⊥
      rw [hmax]
      simp
    · show maxOver 1 (fun _ : ℕ => (0 : EReal) + 0) ≠ ⊥
      rw [show (fun _ : ℕ => (0 : EReal) + 0) = (fun _ : ℕ => (0 : EReal)) from
        funext fun _ => add_zero 0, hmax]
      simp
    · intro a b _ _
      rw [hspec a b]
      refine ⟨?_, by simp, by simp⟩
      show eexp 0 = (1 : ℂ).re
      rw [eexp_zero, Complex.one_re]
    · intro a b i j _ _ _ _
      rw [hinner a b i j]
      by_cases hij : i = j
      · rw [if_pos hij]
        simp
      · rw [if_neg hij]
        simp
  refine ⟨⟨by simp, by simp, hhyp⟩, ?_⟩
  refine (claimC1_eigen_counts_refinement 1 cherryTree (fun _ _ => 1) (fun _ _ => 1)
    (fun _ => 0) (fun _ _ => 0) (fun _ => 1) (fun _ _ _ => 0) (fun _ _ _ => 1)
    { logE := fun _ _ => 0, logF := fun _ _ => 0, logG := fun _ _ => 0,
      colLogLike := 0 } [0, 2] 2 (by simp) (by simp) ?_ 0 0 (by norm_num)
    (by norm_num)).1
  intro node hmem hne
  have hcases : node = 0 ∨ node = 2 := by
    rcases List.mem_cons.mp hmem with h | h
    · exact Or.inl h
    · rcases List.mem_cons.mp h with h2 | h2
      · exact Or.inr h2
      · exact absurd h2 (List.not_mem_nil node)
  rcases hcases with h | h
  · rw [h]
    exact hhyp
  · exact absurd h hne

end EigenCountTheorems

section SpanConnTheorems

theorem estep_symm {α : Type} {P : Edge α → Prop} {u v : ℕ} (h : estep P u v) :
    estep P v u := by
  obtain ⟨e, he, h1 | h2⟩ := h
  · exact ⟨e, he, Or.inr h1⟩
  · exact ⟨e, he, Or.inl h2⟩

theorem estep_mono {α : Type} {P Q : Edge α → Prop} (hPQ : ∀ e, P e → Q e)
    {u v : ℕ} (h : estep P u v) : estep Q u v := by
  obtain ⟨e, he, hp⟩ := h
  exact ⟨e, hPQ e he, hp⟩

theorem conn_refl {α : Type} (P : Edge α → Prop) (u : ℕ) : conn P u u :=
  Relation.ReflTransGen.refl

theorem conn_step {α : Type} {P : Edge α → Prop} {u v : ℕ} (h : estep P u v) :
    conn P u v :=
  Relation.ReflTransGen.single h

theorem conn_symm {α : Type} {P : Edge α → Prop} {u v : ℕ} (h : conn P u v) :
    conn P v u := by
  induction h with
  | refl => exact Relation.ReflTransGen.refl
  | tail _ hstep ih => exact Relation.ReflTransGen.head (estep_symm hstep) ih

theorem conn_trans {α : Type} {P : Edge α → Prop} {u v w : ℕ}
    (h1 : conn P u v) (h2 : conn P v w) : conn P u w :=
  Relation.ReflTransGen.trans h1 h2

theorem conn_mono {α : Type} {P Q : Edge α → Prop} (hPQ : ∀ e, P e → Q e)
    {u v : ℕ} (h : conn P u v) : conn Q u v :=
  Relation.ReflTransGen.mono (fun _ _ hs => estep_mono hPQ hs) h

theorem conn_of_mem {α : Type} {C : List (Edge α)} {e : Edge α} (he : e ∈ C) :
    conn (fun g => g ∈ C) e.row1 e.row2 :=
  conn_step ⟨e, he, Or.inl ⟨rfl, rfl⟩⟩

theorem isChain_conn {α : Type} {P : Edge α → Prop} :
    ∀ (l : List ℕ) (u v : ℕ), isChain P u l v → conn P u v := by
  intro l
  induction l with
  | nil => intro u v h; cases h; exact conn_refl P u
  | cons z l ih =>
    intro u v h
    exact Relation.ReflTransGen.head h.1 (ih z v h.2)

theorem isChain_snoc {α : Type} {P : Edge α → Prop} :
    ∀ (l : List ℕ) (u v w : ℕ), isChain P u l v → estep P v w →
      isChain P u (l ++ [w]) w := by
  intro l
  induction l with
  | nil => intro u v w h hs; cases h; exact ⟨hs, rfl⟩
  | cons z l ih =>
    intro u v w h hs
    exact ⟨h.1, ih z v w h.2 hs⟩

theorem conn_isChain {α : Type} {P : Edge α → Prop} {u v : ℕ} (h : conn P u v) :
    ∃ l, isChain P u l v := by
  induction h with
  | refl => exact ⟨[], rfl⟩
  | tail _ hstep ih =>
    obtain ⟨l, hch⟩ := ih
    exact ⟨l ++ [_], isChain_snoc l _ _ _ hch hstep⟩

theorem isChain_suffix {α : Type} {P : Edge α → Prop} :
    ∀ (l : List ℕ) (u v w : ℕ), isChain P u l v → w ∈ u :: l →
      ∃ l', isChain P w l' v ∧ (w :: l') <:+ (u :: l) := by
  intro l
  induction l with
  | nil =>
    intro u v w h hw
    cases h
    have : w = u := by simpa using hw
    subst this
    exact ⟨[], rfl, List.suffix_refl _⟩
  | cons z l ih =>
    intro u v w h hw
    rcases List.mem_cons.1 hw with hwu | hwz
    · subst hwu
      exact ⟨z :: l, h, List.suffix_refl _⟩
    · obtain ⟨l', hch, hsuf⟩ := ih z v w h.2 hwz
      exact ⟨l', hch, hsuf.trans (List.suffix_cons u (z :: l))⟩

theorem conn_nodup_chain {α : Type} {P : Edge α → Prop} {u v : ℕ} (h : conn P u v) :
    ∃ l, isChain P u l v ∧ (u :: l).Nodup := by
  induction h using Relation.ReflTransGen.head_induction_on with
  | refl => exact ⟨[], rfl, List.nodup_singleton v⟩
  | head hstep _ ih =>
    obtain ⟨l, hch, hnd⟩ := ih
    rename_i a c _
    by_cases hmem : a ∈ c :: l
    · obtain ⟨l', hch', hsuf⟩ := isChain_suffix l c v a hch hmem
      exact ⟨l', hch', List.Nodup.sublist hsuf.sublist hnd⟩
    · exact ⟨c :: l, ⟨hstep, hch⟩, List.nodup_cons.2 ⟨hmem, hnd⟩⟩

end SpanConnTheorems

section SpanExchangeTheorems

theorem chain_last_exit {α : Type} {P : Edge α → Prop} (S : ℕ → Prop) :
    ∀ (l : List ℕ) (u v : ℕ), isChain P u l v → ¬ S v →
    (∀ x ∈ u :: l, ¬ S x) ∨
    ∃ l₁ p q l₂, u :: l = (u :: l₁) ++ q :: l₂ ∧ isChain P u l₁ p ∧ S p ∧
      ¬ S q ∧ estep P p q ∧ isChain P q l₂ v ∧ (∀ x ∈ q :: l₂, ¬ S x) := by
  intro l
  induction l with
  | nil =>
    intro u v h hv
    have h' : u = v := h
    subst h'
    left
    intro x hx
    have hx' : x = u := by simpa using hx
    subst hx'
    exact hv
  | cons z l ih =>
    intro u v h hv
    obtain ⟨hstep, hch⟩ := h
    rcases ih z v hch hv with hall | ⟨l₁, p, q, l₂, heq, hchpre, hp, hq, hpq, hch₂, hout⟩
    · by_cases hu : S u
      · right
        exact ⟨[], u, z, l, rfl, rfl, hu, hall z (List.mem_cons_self z l), hstep,
          hch, hall⟩
      · left
        intro x hx
        rcases List.mem_cons.1 hx with hxu | hxz
        · subst hxu; exact hu
        · exact hall x hxz
    · right
      have hl : l = l₁ ++ q :: l₂ := by
        have h2 := congrArg List.tail heq
        simpa using h2
      refine ⟨z :: l₁, p, q, l₂, ?_, ⟨hstep, hchpre⟩, hp, hq, hpq, hch₂, hout⟩
      simp [hl]

theorem conn_crossing {α : Type} {P : Edge α → Prop} (S : ℕ → Prop) {u v : ℕ}
    (h : conn P u v) (hu : S u) (hv : ¬ S v) :
    ∃ e, P e ∧ ((S e.row1 ∧ ¬ S e.row2) ∨ (S e.row2 ∧ ¬ S e.row1)) := by
  obtain ⟨l, hch⟩ := conn_isChain h
  rcases chain_last_exit S l u v hch hv with hall | ⟨_, p, q, _, _, _, hp, hq, hpq, _, _⟩
  · exact absurd hu (hall u (List.mem_cons_self u l))
  · obtain ⟨e, he, hends⟩ := hpq
    rcases hends with ⟨h1, h2⟩ | ⟨h1, h2⟩
    · exact ⟨e, he, Or.inl ⟨h1 ▸ hp, h2 ▸ hq⟩⟩
    · exact ⟨e, he, Or.inr ⟨h2 ▸ hp, h1 ▸ hq⟩⟩

theorem isChain_avoid {α : Type} {P : Edge α → Prop} (f : Edge α) :
    ∀ (l : List ℕ) (u v : ℕ), isChain P u l v →
    (f.row1 ∉ u :: l ∨ f.row2 ∉ u :: l) →
    isChain (fun g => P g ∧ g ≠ f) u l v := by
  intro l
  induction l with
  | nil => intro u v h _; exact h
  | cons z l ih =>
    intro u v h hf
    obtain ⟨⟨g, hg, hends⟩, hch⟩ := h
    refine ⟨⟨g, ⟨hg, ?_⟩, hends⟩, ih z v hch ?_⟩
    · rintro rfl
      rcases hends with ⟨h1, h2⟩ | ⟨h1, h2⟩
      · rcases hf with hf | hf
        · exact hf (by rw [h1]; exact List.mem_cons_self u (z :: l))
        · exact hf (by rw [h2]; exact List.mem_cons_of_mem u (List.mem_cons_self z l))
      · rcases hf with hf | hf
        · exact hf (by rw [h1]; exact List.mem_cons_of_mem u (List.mem_cons_self z l))
        · exact hf (by rw [h2]; exact List.mem_cons_self u (z :: l))
    · rcases hf with hf | hf
      · exact Or.inl (fun hmem => hf (List.mem_cons_of_mem u hmem))
      · exact Or.inr (fun hmem => hf (List.mem_cons_of_mem u hmem))

theorem conn_replace {α : Type} {M M' : Edge α → Prop} {f : Edge α}
    (hsub : ∀ g, M g → g ≠ f → M' g)
    (hf : conn M' f.row1 f.row2) :
    ∀ x y, conn M x y → conn M' x y := by
  intro x y h
  induction h with
  | refl => exact conn_refl M' x
  | tail _ hstep ih =>
    obtain ⟨g, hg, hends⟩ := hstep
    by_cases hgf : g = f
    · subst hgf
      rcases hends with ⟨h1, h2⟩ | ⟨h1, h2⟩
      · exact conn_trans ih (h1 ▸ h2 ▸ hf)
      · exact conn_trans ih (conn_symm (h2 ▸ h1 ▸ hf))
    · exact conn_trans ih (conn_step ⟨g, hsub g hg hgf, hends⟩)

theorem span_exchange {α : Type} {M : Edge α → Prop} (S : ℕ → Prop) {u0 w0 : ℕ}
    (e : Edge α)
    (he : (e.row1 = u0 ∧ e.row2 = w0) ∨ (e.row1 = w0 ∧ e.row2 = u0))
    (hu : S u0) (hw : ¬ S w0) (hconn : conn M u0 w0) :
    ∃ f, M f ∧ ((S f.row1 ∧ ¬ S f.row2) ∨ (S f.row2 ∧ ¬ S f.row1)) ∧
      ∀ x y, conn M x y → conn (fun g => (M g ∧ g ≠ f) ∨ g = e) x y := by
  obtain ⟨l, hch, hnd⟩ := conn_nodup_chain hconn
  rcases chain_last_exit S l u0 w0 hch hw with hall | hsplit
  · exact absurd hu (hall u0 (List.mem_cons_self u0 l))
  obtain ⟨l₁, p, q, l₂, heq, hchpre, hp, hq, hpq, hch₂, hout⟩ := hsplit
  obtain ⟨f, hfM, hfends⟩ := hpq
  -- q does not occur among the prefix vertices (the whole chain is nodup)
  have hnd' : ((u0 :: l₁) ++ q :: l₂).Nodup := heq ▸ hnd
  have hdisj : (u0 :: l₁).Disjoint (q :: l₂) := (List.nodup_append.1 hnd').2.2
  have hqpre : q ∉ u0 :: l₁ := fun hmem => hdisj hmem (List.mem_cons_self q l₂)
  -- p is in S, while every suffix vertex is not, so p avoids the suffix
  have hpsuf : p ∉ q :: l₂ := fun hmem => hout p hmem hp
  -- the prefix and suffix chains avoid f
  have hqf : f.row1 = q ∨ f.row2 = q := by
    rcases hfends with ⟨h1, h2⟩ | ⟨h1, h2⟩
    · exact Or.inr h2
    · exact Or.inl h1
  have hpf : f.row1 = p ∨ f.row2 = p := by
    rcases hfends with ⟨h1, h2⟩ | ⟨h1, h2⟩
    · exact Or.inl h1
    · exact Or.inr h2
  have hchpre' : isChain (fun g => M g ∧ g ≠ f) u0 l₁ p := by
    apply isChain_avoid f l₁ u0 p hchpre
    rcases hqf with h1 | h2
    · exact Or.inl (h1 ▸ hqpre)
    · exact Or.inr (h2 ▸ hqpre)
  have hch₂' : isChain (fun g => M g ∧ g ≠ f) q l₂ w0 := by
    apply isChain_avoid f l₂ q w0 hch₂
    rcases hpf with h1 | h2
    · exact Or.inl (h1 ▸ hpsuf)
    · exact Or.inr (h2 ▸ hpsuf)
  refine ⟨f, hfM, ?_, ?_⟩
  · rcases hfends with ⟨h1, h2⟩ | ⟨h1, h2⟩
    · exact Or.inl ⟨h1 ▸ hp, h2 ▸ hq⟩
    · exact Or.inr ⟨h2 ▸ hp, h1 ▸ hq⟩
  · -- reconnect p and q through e, then replace every use of f
    have hMf : ∀ g, (M g ∧ g ≠ f) → (fun g => (M g ∧ g ≠ f) ∨ g = e) g :=
      fun g hg => Or.inl hg
    have hpq' : conn (fun g => (M g ∧ g ≠ f) ∨ g = e) p q := by
      have h1 : conn (fun g => (M g ∧ g ≠ f) ∨ g = e) p u0 :=
        conn_mono hMf (conn_symm (isChain_conn l₁ u0 p hchpre'))
      have h2 : conn (fun g => (M g ∧ g ≠ f) ∨ g = e) u0 w0 :=
        conn_step ⟨e, Or.inr rfl, by
          rcases he with ⟨ha, hb⟩ | ⟨ha, hb⟩
          · exact Or.inl ⟨ha, hb⟩
          · exact Or.inr ⟨ha, hb⟩⟩
      have h3 : conn (fun g => (M g ∧ g ≠ f) ∨ g = e) w0 q :=
        conn_mono hMf (conn_symm (isChain_conn l₂ q w0 hch₂'))
      exact conn_trans (conn_trans h1 h2) h3
    apply conn_replace (fun g hg hgf => Or.inl ⟨hg, hgf⟩)
    rcases hfends with ⟨h1, h2⟩ | ⟨h1, h2⟩
    · exact h1 ▸ h2 ▸ hpq'
    · exact h1 ▸ h2 ▸ conn_symm hpq'

end SpanExchangeTheorems

section SpanPartitionTheorems

theorem getD_range {m n : ℕ} (d : ℕ) (h : m < n) : (List.range n).getD m d = m := by
  have hlen : m < (List.range n).length := by simpa using h
  rw [listGetD_eq_get _ _ hlen]
  simp [List.get_range]

theorem getD_range_map {β : Type} (f : ℕ → β) (d : β) {m n : ℕ} (h : m < n) :
    ((List.range n).map f).getD m d = f m := by
  have hlen : m < ((List.range n).map f).length := by simpa using h
  rw [listGetD_eq_get _ _ hlen, List.get_map]
  congr 1
  simp [List.get_range]

theorem getD_set_self {β : Type} (l : List β) (i : ℕ) (x d : β) (h : i < l.length) :
    (l.set i x).getD i d = x := by
  have hlen : i < (l.set i x).length := by simpa using h
  rw [listGetD_eq_get _ _ hlen]
  simp [List.get_set]

theorem getD_set_ne {β : Type} (l : List β) {i j : ℕ} (x d : β) (h : j ≠ i) :
    (l.set i x).getD j d = l.getD j d := by
  by_cases hj : j < l.length
  · have hlen : j < (l.set i x).length := by simpa using hj
    rw [listGetD_eq_get _ _ hlen, listGetD_eq_get _ _ hj]
    rw [List.get_eq_getElem, List.get_eq_getElem, List.getElem_set]
    rw [if_neg (fun h' => h h'.symm)]
  · rw [List.getD_eq_default, List.getD_eq_default]
    · omega
    · simpa using (by omega : l.length ≤ j)

theorem mergeIdx_lt {α : Type} {p : Partition} {e : Edge α} (h : ¬ p.inSameSet e) :
    mergeIdx1 p e < mergeIdx2 p e := by
  have hne : p.idxOf e.row1 ≠ p.idxOf e.row2 := h
  unfold mergeIdx1 mergeIdx2
  split <;> omega

theorem mergeIdx_cases {α : Type} (p : Partition) (e : Edge α) :
    (mergeIdx1 p e = p.idxOf e.row1 ∧ mergeIdx2 p e = p.idxOf e.row2) ∨
    (mergeIdx1 p e = p.idxOf e.row2 ∧ mergeIdx2 p e = p.idxOf e.row1) := by
  unfold mergeIdx1 mergeIdx2
  split
  · exact Or.inr ⟨rfl, rfl⟩
  · exact Or.inl ⟨rfl, rfl⟩

theorem merge_seqSetIdx {α : Type} (p : Partition) (e : Edge α) (h : ¬ p.inSameSet e) :
    (p.merge e).seqSetIdx = p.seqSetIdx.mapIdx
      (fun n2 v => if n2 ∈ p.seqSet.getD (mergeIdx2 p e) ∅ then mergeIdx1 p e else v) := by
  unfold Partition.merge mergeIdx1 mergeIdx2
  rw [if_neg h]

theorem merge_seqSet {α : Type} (p : Partition) (e : Edge α) (h : ¬ p.inSameSet e) :
    (p.merge e).seqSet = (p.seqSet.set (mergeIdx1 p e)
        (p.seqSet.getD (mergeIdx1 p e) ∅ ∪ p.seqSet.getD (mergeIdx2 p e) ∅)).set
      (mergeIdx2 p e) ∅ := by
  unfold Partition.merge mergeIdx1 mergeIdx2
  rw [if_neg h]

theorem merge_nSets {α : Type} (p : Partition) (e : Edge α) (h : ¬ p.inSameSet e) :
    (p.merge e).nSets = p.nSets - 1 := by
  unfold Partition.merge
  rw [if_neg h]

theorem merge_idxOf {α : Type} {p : Partition} {e : Edge α} (h : ¬ p.inSameSet e)
    {r : ℕ} (hr : r < p.seqSetIdx.length) :
    (p.merge e).idxOf r =
      if r ∈ p.seqSet.getD (mergeIdx2 p e) ∅ then mergeIdx1 p e else p.idxOf r := by
  unfold Partition.idxOf
  rw [merge_seqSetIdx p e h, Partition.getD_mapIdx _ _ _ _ hr]
  rw [← listGetD_eq_get _ _ hr]

theorem merge_seqSet_getD {α : Type} {p : Partition} {e : Edge α}
    (h : ¬ p.inSameSet e) (h2 : mergeIdx2 p e < p.seqSet.length) (s : ℕ) :
    (p.merge e).seqSet.getD s ∅ =
      if s = mergeIdx2 p e then ∅
      else if s = mergeIdx1 p e then
        p.seqSet.getD (mergeIdx1 p e) ∅ ∪ p.seqSet.getD (mergeIdx2 p e) ∅
      else p.seqSet.getD s ∅ := by
  have h1 : mergeIdx1 p e < p.seqSet.length := lt_trans (mergeIdx_lt h) h2
  rw [merge_seqSet p e h]
  by_cases hs2 : s = mergeIdx2 p e
  · subst hs2
    rw [if_pos rfl]
    exact getD_set_self _ _ _ _ (by simpa using h2)
  · rw [if_neg hs2, getD_set_ne _ _ _ hs2]
    by_cases hs1 : s = mergeIdx1 p e
    · subst hs1
      rw [if_pos rfl, getD_set_self _ _ _ _ h1]
    · rw [if_neg hs1, getD_set_ne _ _ _ hs1]

end SpanPartitionTheorems

section SpanPartitionTheorems2

theorem conn_nil_iff {α : Type} {u v : ℕ} :
    conn (fun g => g ∈ ([] : List (Edge α))) u v ↔ u = v := by
  constructor
  · intro h
    induction h with
    | refl => rfl
    | tail _ hstep _ =>
      obtain ⟨e, he, _⟩ := hstep
      simp at he
  · rintro rfl
    exact conn_refl _ u

theorem conn_append_redundant {α : Type} {C : List (Edge α)} {e : Edge α}
    (he : conn (fun g => g ∈ C) e.row1 e.row2) (u v : ℕ) :
    conn (fun g => g ∈ C ++ [e]) u v ↔ conn (fun g => g ∈ C) u v := by
  constructor
  · apply conn_replace (M := fun g => g ∈ C ++ [e]) (f := e)
    · intro g hg hge
      rcases List.mem_append.1 hg with h | h
      · exact h
      · exact absurd (by simpa using h) hge
    · exact he
  · exact conn_mono (fun g hg => List.mem_append.2 (Or.inl hg))

theorem conn_append_iff {α : Type} {C : List (Edge α)} {e : Edge α} {u v : ℕ} :
    conn (fun g => g ∈ C ++ [e]) u v ↔
      conn (fun g => g ∈ C) u v ∨
      (conn (fun g => g ∈ C) u e.row1 ∧ conn (fun g => g ∈ C) e.row2 v) ∨
      (conn (fun g => g ∈ C) u e.row2 ∧ conn (fun g => g ∈ C) e.row1 v) := by
  constructor
  · intro h
    induction h with
    | refl => exact Or.inl (conn_refl _ u)
    | @tail b c _ hstep ih =>
      obtain ⟨g, hg, hends⟩ := hstep
      rcases List.mem_append.1 hg with hgC | hge
      · have hstep' : conn (fun g => g ∈ C) b c := conn_step ⟨g, hgC, hends⟩
        rcases ih with h1 | ⟨ha, hb⟩ | ⟨ha, hb⟩
        · exact Or.inl (conn_trans h1 hstep')
        · exact Or.inr (Or.inl ⟨ha, conn_trans hb hstep'⟩)
        · exact Or.inr (Or.inr ⟨ha, conn_trans hb hstep'⟩)
      · have hge' : g = e := by simpa using hge
        subst hge'
        rcases hends with ⟨hb, hc⟩ | ⟨hb, hc⟩
        · rcases ih with h1 | ⟨ha, hb'⟩ | ⟨ha, hb'⟩
          · refine Or.inr (Or.inl ⟨?_, ?_⟩)
            · rwa [hb]
            · rw [hc]; exact conn_refl _ c
          · refine Or.inr (Or.inl ⟨ha, ?_⟩)
            rw [hc]; exact conn_refl _ c
          · refine Or.inl ?_
            rwa [← hc]
        · rcases ih with h1 | ⟨ha, hb'⟩ | ⟨ha, hb'⟩
          · refine Or.inr (Or.inr ⟨?_, ?_⟩)
            · rwa [hc]
            · rw [hb]; exact conn_refl _ c
          · refine Or.inl ?_
            rwa [← hb]
          · refine Or.inl ?_
            have h2 : conn (fun g => g ∈ C) g.row1 g.row2 := by rw [hc]; exact hb'
            have h3 := conn_trans ha (conn_symm h2)
            rwa [← hb]
  · intro h
    have hsub : ∀ g, g ∈ C → g ∈ C ++ [e] := fun g hg => List.mem_append.2 (Or.inl hg)
    have hestep : conn (fun g => g ∈ C ++ [e]) e.row1 e.row2 :=
      conn_step ⟨e, List.mem_append.2 (Or.inr (by simp)), Or.inl ⟨rfl, rfl⟩⟩
    rcases h with h1 | ⟨ha, hb⟩ | ⟨ha, hb⟩
    · exact conn_mono hsub h1
    · exact conn_trans (conn_trans (conn_mono hsub ha) hestep) (conn_mono hsub hb)
    · exact conn_trans (conn_trans (conn_mono hsub ha) (conn_symm hestep)) (conn_mono hsub hb)

theorem partInv_start {α : Type} (k : ℕ) :
    PartInv k ([] : List (Edge α)) (Partition.start k) := by
  have hidx : ∀ r, r < k → (Partition.start k).idxOf r = r := by
    intro r hr
    exact getD_range 0 hr
  have hset : ∀ s, s < k → (Partition.start k).seqSet.getD s ∅ = {s} := by
    intro s hs
    exact getD_range_map (fun i => ({i} : Finset ℕ)) ∅ hs
  refine ⟨by simp [Partition.start], by simp [Partition.start], ?_, ?_, ?_, ?_⟩
  · intro r hr
    rw [hidx r hr, hset r hr]
    exact ⟨hr, Finset.mem_singleton_self r⟩
  · intro s hs m hm
    rw [hset s hs] at hm
    have hms : m = s := Finset.mem_singleton.1 hm
    subst hms
    exact ⟨hs, hidx m hs, le_refl m⟩
  · intro u v hu hv
    rw [hidx u hu, hidx v hv, conn_nil_iff]
  · show k = _
    rw [Finset.filter_true_of_mem, Finset.card_range]
    intro s hs
    rw [hset s (Finset.mem_range.1 hs)]
    simp

end SpanPartitionTheorems2

section SpanPartitionTheorems3

theorem partInv_merge {α : Type} {k : ℕ} {C : List (Edge α)} {p : Partition}
    (hinv : PartInv k C p) (e : Edge α) (h1 : e.row1 < k) (h2 : e.row2 < k) :
    PartInv k (C ++ [e]) (p.merge e) := by
  by_cases hsame : p.inSameSet e
  · have hconn_e : conn (fun g => g ∈ C) e.row1 e.row2 :=
      (hinv.classes e.row1 e.row2 h1 h2).1 hsame
    rw [Partition.merge_of_inSameSet p e hsame]
    refine ⟨hinv.idxLen, hinv.setLen, hinv.memOwn, hinv.ownMem, ?_, hinv.countSets⟩
    intro u v hu hv
    rw [conn_append_redundant hconn_e u v]
    exact hinv.classes u v hu hv
  · obtain ⟨hL1, hL2, hmemOwn, hownMem, hclasses, hcount⟩ := hinv
    have hi1k : p.idxOf e.row1 < k := (hmemOwn e.row1 h1).1
    have hi2k : p.idxOf e.row2 < k := (hmemOwn e.row2 h2).1
    have hJlt : mergeIdx1 p e < mergeIdx2 p e := mergeIdx_lt hsame
    have hJne : mergeIdx1 p e ≠ mergeIdx2 p e := Nat.ne_of_lt hJlt
    have hJcases := mergeIdx_cases p e
    have hJ1k : mergeIdx1 p e < k := by
      rcases hJcases with ⟨hA, _⟩ | ⟨hA, _⟩ <;> omega
    have hJ2k : mergeIdx2 p e < k := by
      rcases hJcases with ⟨_, hB⟩ | ⟨_, hB⟩ <;> omega
    have hset2 : ∀ m, m ∈ p.seqSet.getD (mergeIdx2 p e) ∅ ↔
        m < k ∧ p.idxOf m = mergeIdx2 p e := by
      intro m
      constructor
      · intro hm
        obtain ⟨hmk, hidx, _⟩ := hownMem _ hJ2k m hm
        exact ⟨hmk, hidx⟩
      · rintro ⟨hmk, hidx⟩
        have hmem := (hmemOwn m hmk).2
        rwa [hidx] at hmem
    have hset1 : ∀ m, m ∈ p.seqSet.getD (mergeIdx1 p e) ∅ ↔
        m < k ∧ p.idxOf m = mergeIdx1 p e := by
      intro m
      constructor
      · intro hm
        obtain ⟨hmk, hidx, _⟩ := hownMem _ hJ1k m hm
        exact ⟨hmk, hidx⟩
      · rintro ⟨hmk, hidx⟩
        have hmem := (hmemOwn m hmk).2
        rwa [hidx] at hmem
    have hne1 : p.seqSet.getD (mergeIdx1 p e) ∅ ≠ ∅ := by
      rcases hJcases with ⟨hA, _⟩ | ⟨hA, _⟩
      · intro hemp
        have hm := (hmemOwn e.row1 h1).2
        rw [← hA] at hm
        rw [hemp] at hm
        simp at hm
      · intro hemp
        have hm := (hmemOwn e.row2 h2).2
        rw [← hA] at hm
        rw [hemp] at hm
        simp at hm
    have hne2 : p.seqSet.getD (mergeIdx2 p e) ∅ ≠ ∅ := by
      rcases hJcases with ⟨_, hB⟩ | ⟨_, hB⟩
      · intro hemp
        have hm := (hmemOwn e.row2 h2).2
        rw [← hB] at hm
        rw [hemp] at hm
        simp at hm
      · intro hemp
        have hm := (hmemOwn e.row1 h1).2
        rw [← hB] at hm
        rw [hemp] at hm
        simp at hm
    have hidxOf' : ∀ r, r < k → (p.merge e).idxOf r =
        if p.idxOf r = mergeIdx2 p e then mergeIdx1 p e else p.idxOf r := by
      intro r hr
      rw [merge_idxOf hsame (by rw [hL1]; exact hr)]
      by_cases hmem : r ∈ p.seqSet.getD (mergeIdx2 p e) ∅
      · rw [if_pos hmem, if_pos ((hset2 r).1 hmem).2]
      · rw [if_neg hmem, if_neg (fun hc => hmem ((hset2 r).2 ⟨hr, hc⟩))]
    have hsets' := merge_seqSet_getD hsame (by rw [hL2]; exact hJ2k)
    refine ⟨?_, ?_, ?_, ?_, ?_, ?_⟩
    · rw [merge_seqSetIdx p e hsame]
      simpa using hL1
    · rw [merge_seqSet p e hsame]
      simpa using hL2
    · intro r hr
      rw [hidxOf' r hr]
      by_cases hc : p.idxOf r = mergeIdx2 p e
      · rw [if_pos hc]
        refine ⟨hJ1k, ?_⟩
        rw [hsets' (mergeIdx1 p e), if_neg hJne, if_pos rfl]
        exact Finset.mem_union_right _ ((hset2 r).2 ⟨hr, hc⟩)
      · rw [if_neg hc]
        refine ⟨(hmemOwn r hr).1, ?_⟩
        rw [hsets' (p.idxOf r), if_neg hc]
        by_cases hc1 : p.idxOf r = mergeIdx1 p e
        · rw [if_pos hc1]
          exact Finset.mem_union_left _ ((hset1 r).2 ⟨hr, hc1⟩)
        · rw [if_neg hc1]
          exact (hmemOwn r hr).2
    · intro s hs m hm
      rw [hsets' s] at hm
      by_cases hs2 : s = mergeIdx2 p e
      · rw [if_pos hs2] at hm
        simp at hm
      · rw [if_neg hs2] at hm
        by_cases hs1 : s = mergeIdx1 p e
        · rw [if_pos hs1] at hm
          rcases Finset.mem_union.1 hm with hm1 | hm2
          · obtain ⟨hmk, hidx⟩ := (hset1 m).1 hm1
            refine ⟨hmk, ?_, ?_⟩
            · rw [hidxOf' m hmk, if_neg (by rw [hidx]; exact hJne), hidx, hs1]
            · rw [hs1]
              exact (hownMem _ hJ1k m hm1).2.2
          · obtain ⟨hmk, hidx⟩ := (hset2 m).1 hm2
            refine ⟨hmk, ?_, ?_⟩
            · rw [hidxOf' m hmk, if_pos hidx, hs1]
            · rw [hs1]
              have hJ2m := (hownMem _ hJ2k m hm2).2.2
              omega
        · rw [if_neg hs1] at hm
          obtain ⟨hmk, hidx, hsm⟩ := hownMem s hs m hm
          refine ⟨hmk, ?_, hsm⟩
          rw [hidxOf' m hmk, if_neg (by rw [hidx]; exact hs2), hidx]
    · intro u v hu hv
      rw [hidxOf' u hu, hidxOf' v hv, conn_append_iff,
        ← hclasses u v hu hv, ← hclasses u e.row1 hu h1, ← hclasses e.row2 v h2 hv,
        ← hclasses u e.row2 hu h2, ← hclasses e.row1 v h1 hv]
      have hi12 : p.idxOf e.row1 ≠ p.idxOf e.row2 := hsame
      rcases hJcases with ⟨hA, hB⟩ | ⟨hA, hB⟩ <;> split_ifs <;> omega
    · rw [merge_nSets p e hsame, hcount]
      have hfeq : (Finset.range k).filter
            (fun s => (p.merge e).seqSet.getD s ∅ ≠ ∅) =
          ((Finset.range k).filter (fun s => p.seqSet.getD s ∅ ≠ ∅)).erase
            (mergeIdx2 p e) := by
        ext s
        simp only [Finset.mem_filter, Finset.mem_erase, Finset.mem_range]
        constructor
        · rintro ⟨hsk, hne⟩
          rw [hsets' s] at hne
          by_cases hs2 : s = mergeIdx2 p e
          · rw [if_pos hs2] at hne
            exact absurd rfl hne
          · rw [if_neg hs2] at hne
            refine ⟨hs2, hsk, ?_⟩
            by_cases hs1 : s = mergeIdx1 p e
            · rw [hs1]
              exact hne1
            · rwa [if_neg hs1] at hne
        · rintro ⟨hs2, hsk, hne⟩
          refine ⟨hsk, ?_⟩
          rw [hsets' s, if_neg hs2]
          by_cases hs1 : s = mergeIdx1 p e
          · rw [if_pos hs1]
            intro hU
            rw [Finset.union_eq_empty] at hU
            exact hne1 hU.1
          · rwa [if_neg hs1]
      rw [hfeq, Finset.card_erase_of_mem]
      simp only [Finset.mem_filter, Finset.mem_range]
      exact ⟨hJ2k, hne2⟩

end SpanPartitionTheorems3

section SpanPartitionTheorems4

theorem mergeAll_append {α : Type} (k : ℕ) (C : List (Edge α)) (e : Edge α) :
    mergeAll k (C ++ [e]) = (mergeAll k C).merge e := by
  unfold mergeAll
  rw [List.foldl_append]
  rfl

theorem partInv_mergeAll {α : Type} (k : ℕ) (C : List (Edge α))
    (hC : ∀ e ∈ C, e.row1 < k ∧ e.row2 < k) :
    PartInv k C (mergeAll k C) := by
  induction C using List.reverseRecOn with
  | nil => exact partInv_start k
  | append_singleton C e ih =>
    rw [mergeAll_append]
    have he := hC e (List.mem_append.2 (Or.inr (by simp)))
    exact partInv_merge
      (ih (fun g hg => hC g (List.mem_append.2 (Or.inl hg)))) e he.1 he.2

theorem partInv_idxOf_zero {α : Type} {k : ℕ} {C : List (Edge α)} {p : Partition}
    (hinv : PartInv k C p) (hk : 0 < k) : p.idxOf 0 = 0 := by
  have h := hinv.memOwn 0 hk
  have h2 := hinv.ownMem _ h.1 0 h.2
  omega

theorem partInv_seqSet_zero {α : Type} {k : ℕ} {C : List (Edge α)} {p : Partition}
    (hinv : PartInv k C p) (hk : 0 < k) (m : ℕ) :
    m ∈ p.seqSet.getD 0 ∅ ↔ m < k ∧ conn (fun g => g ∈ C) 0 m := by
  constructor
  · intro hm
    obtain ⟨hmk, hidx, _⟩ := hinv.ownMem 0 hk m hm
    refine ⟨hmk, (hinv.classes 0 m hk hmk).1 ?_⟩
    rw [partInv_idxOf_zero hinv hk, hidx]
  · rintro ⟨hmk, hconn⟩
    have hidx : p.idxOf 0 = p.idxOf m := (hinv.classes 0 m hk hmk).2 hconn
    have hmem := (hinv.memOwn m hmk).2
    rw [← hidx, partInv_idxOf_zero hinv hk] at hmem
    exact hmem

theorem partInv_inSameSet_iff {α : Type} {k : ℕ} {C : List (Edge α)} {p : Partition}
    (hinv : PartInv k C p) (e : Edge α) (h1 : e.row1 < k) (h2 : e.row2 < k) :
    p.inSameSet e ↔ conn (fun g => g ∈ C) e.row1 e.row2 :=
  hinv.classes e.row1 e.row2 h1 h2

theorem partInv_nSets_pos {α : Type} {k : ℕ} {C : List (Edge α)} {p : Partition}
    (hinv : PartInv k C p) (hk : 0 < k) : 0 < p.nSets := by
  rw [hinv.countSets]
  rw [Finset.card_pos]
  refine ⟨p.idxOf 0, ?_⟩
  simp only [Finset.mem_filter, Finset.mem_range]
  have h := hinv.memOwn 0 hk
  exact ⟨h.1, fun hemp => by rw [hemp] at h; simp at h⟩

theorem partInv_nSets_one_iff {α : Type} {k : ℕ} {C : List (Edge α)} {p : Partition}
    (hinv : PartInv k C p) (hk : 0 < k) :
    p.nSets = 1 ↔ ∀ v, v < k → conn (fun g => g ∈ C) 0 v := by
  constructor
  · intro hone v hv
    rw [hinv.countSets] at hone
    obtain ⟨a, ha⟩ := Finset.card_eq_one.1 hone
    have h0 : p.idxOf 0 ∈ (Finset.range k).filter
        (fun s => p.seqSet.getD s ∅ ≠ ∅) := by
      simp only [Finset.mem_filter, Finset.mem_range]
      have h := hinv.memOwn 0 hk
      exact ⟨h.1, fun hemp => by rw [hemp] at h; simp at h⟩
    have hvmem : p.idxOf v ∈ (Finset.range k).filter
        (fun s => p.seqSet.getD s ∅ ≠ ∅) := by
      simp only [Finset.mem_filter, Finset.mem_range]
      have h := hinv.memOwn v hv
      exact ⟨h.1, fun hemp => by rw [hemp] at h; simp at h⟩
    rw [ha] at h0 hvmem
    have heq : p.idxOf 0 = p.idxOf v := by
      rw [Finset.mem_singleton.1 h0, Finset.mem_singleton.1 hvmem]
    exact (hinv.classes 0 v hk hv).1 heq
  · intro hall
    rw [hinv.countSets]
    rw [Finset.card_eq_one]
    refine ⟨p.idxOf 0, ?_⟩
    ext s
    simp only [Finset.mem_filter, Finset.mem_range, Finset.mem_singleton]
    constructor
    · rintro ⟨hsk, hne⟩
      obtain ⟨m, hm⟩ := Finset.nonempty_iff_ne_empty.2 hne
      obtain ⟨hmk, hidx, _⟩ := hinv.ownMem s hsk m hm
      have heq : p.idxOf 0 = p.idxOf m :=
        (hinv.classes 0 m hk hmk).2 (hall m hmk)
      rw [← hidx, ← heq]
    · rintro rfl
      have h := hinv.memOwn 0 hk
      exact ⟨h.1, fun hemp => by rw [hemp] at h; simp at h⟩

theorem partInv_nSets_gt_one {α : Type} {k : ℕ} {C : List (Edge α)} {p : Partition}
    (hinv : PartInv k C p) (hk : 0 < k) (hgt : 1 < p.nSets) :
    ∃ v, v < k ∧ ¬ conn (fun g => g ∈ C) 0 v := by
  by_contra hcon
  push_neg at hcon
  have := (partInv_nSets_one_iff hinv hk).2 hcon
  omega

end SpanPartitionTheorems4

section SpanQueueTheorems

theorem popStale_sublist {α : Type} (part : Partition) :
    ∀ l : List (Edge α), List.Sublist (popStale part l) l := by
  intro l
  induction l with
  | nil => exact List.Sublist.refl _
  | cons e rest ih =>
    unfold popStale
    by_cases h : part.inSameSet e
    · rw [if_pos h]
      exact ih.trans (List.sublist_cons_self e rest)
    · rw [if_neg h]

theorem popStale_mem {α : Type} (part : Partition) :
    ∀ (l : List (Edge α)) (f : Edge α), f ∈ l → ¬ part.inSameSet f →
      f ∈ popStale part l := by
  intro l
  induction l with
  | nil => intro f hf _; simp at hf
  | cons e rest ih =>
    intro f hf hfresh
    unfold popStale
    by_cases h : part.inSameSet e
    · rw [if_pos h]
      rcases List.mem_cons.1 hf with hfe | hfr
      · subst hfe; exact absurd h hfresh
      · exact ih f hfr hfresh
    · rw [if_neg h]
      exact hf

theorem popStale_head_fresh {α : Type} (part : Partition) :
    ∀ (l : List (Edge α)) (e : Edge α) (rest : List (Edge α)),
      popStale part l = e :: rest → ¬ part.inSameSet e := by
  intro l
  induction l with
  | nil => intro e rest h; simp [popStale] at h
  | cons f l ih =>
    intro e rest h
    unfold popStale at h
    by_cases hf : part.inSameSet f
    · rw [if_pos hf] at h
      exact ih e rest h
    · rw [if_neg hf] at h
      have hfe : f = e := (List.cons_eq_cons.1 h).1
      subst hfe
      exact hf

theorem popStale_nil_all_stale {α : Type} (part : Partition) :
    ∀ (l : List (Edge α)), popStale part l = [] → ∀ f ∈ l, part.inSameSet f := by
  intro l
  induction l with
  | nil => intro _ f hf; simp at hf
  | cons e rest ih =>
    intro h f hf
    unfold popStale at h
    by_cases he : part.inSameSet e
    · rw [if_pos he] at h
      rcases List.mem_cons.1 hf with hfe | hfr
      · subst hfe; exact he
      · exact ih h f hfr
    · rw [if_neg he] at h
      simp at h

end SpanQueueTheorems

section SpanScanTheorems

theorem scanStep_fst {α : Type} [LinearOrder α] (part : Partition)
    (acc : (ℕ → List (Edge α)) × Option (Edge α)) (src : ℕ) :
    (scanStep part acc src).1 =
      Function.update acc.1 src (popStale part (acc.1 src)) := by
  unfold scanStep
  rcases hq : popStale part (acc.1 src) with _ | ⟨e, rest⟩ <;>
    rcases hb : acc.2 with _ | b <;> simp [hq, hb]

theorem scanStep_snd_nil {α : Type} [LinearOrder α] (part : Partition)
    (acc : (ℕ → List (Edge α)) × Option (Edge α)) (src : ℕ)
    (h : popStale part (acc.1 src) = []) :
    (scanStep part acc src).2 = acc.2 := by
  unfold scanStep
  rcases hb : acc.2 with _ | b <;> simp [h, hb]

theorem scanStep_snd_cons_none {α : Type} [LinearOrder α] (part : Partition)
    (acc : (ℕ → List (Edge α)) × Option (Edge α)) (src : ℕ) (e : Edge α)
    (rest : List (Edge α)) (h : popStale part (acc.1 src) = e :: rest)
    (h2 : acc.2 = none) :
    (scanStep part acc src).2 = some e := by
  unfold scanStep
  simp [h, h2]

theorem scanStep_snd_cons_some {α : Type} [LinearOrder α] (part : Partition)
    (acc : (ℕ → List (Edge α)) × Option (Edge α)) (src : ℕ) (e b : Edge α)
    (rest : List (Edge α)) (h : popStale part (acc.1 src) = e :: rest)
    (h2 : acc.2 = some b) :
    (scanStep part acc src).2 = some (if b.lp < e.lp then e else b) := by
  unfold scanStep
  simp only [h, h2]
  split <;> rfl

theorem scan_master {α : Type} [LinearOrder α] (part : Partition) :
    ∀ (srcs : List ℕ), srcs.Nodup →
    ∀ (E : ℕ → List (Edge α)) (ob : Option (Edge α)),
      (∀ v, (srcs.foldl (scanStep part) (E, ob)).1 v =
        if v ∈ srcs then popStale part (E v) else E v) ∧
      (∀ b, (srcs.foldl (scanStep part) (E, ob)).2 = some b →
        ob = some b ∨ ∃ src ∈ srcs, ∃ rest, popStale part (E src) = b :: rest) ∧
      ((srcs.foldl (scanStep part) (E, ob)).2 = none →
        ob = none ∧ ∀ src ∈ srcs, popStale part (E src) = []) ∧
      (∀ b, (srcs.foldl (scanStep part) (E, ob)).2 = some b →
        (∀ src ∈ srcs, ∀ f rest, popStale part (E src) = f :: rest →
          f.lp ≤ b.lp) ∧
        (∀ b0, ob = some b0 → b0.lp ≤ b.lp)) := by
  intro srcs
  induction srcs with
  | nil =>
    intro _ E ob
    refine ⟨?_, ?_, ?_, ?_⟩
    · intro v; simp
    · intro b hb; exact Or.inl hb
    · intro hn; exact ⟨hn, by simp⟩
    · intro b hb
      refine ⟨by simp, ?_⟩
      intro b0 hb0
      rw [hb0] at hb
      rw [(Option.some.injEq _ _ ▸ hb : b0 = b)]
  | cons s rest ih =>
    intro hnd E ob
    have hs_rest : s ∉ rest := (List.nodup_cons.1 hnd).1
    have hnd' : rest.Nodup := (List.nodup_cons.1 hnd).2
    -- one step
    have hfold : (s :: rest).foldl (scanStep part) (E, ob) =
        rest.foldl (scanStep part) (scanStep part (E, ob) s) := rfl
    set acc1 := scanStep part (E, ob) s with hacc1
    have hE1 : acc1.1 = Function.update E s (popStale part (E s)) :=
      scanStep_fst part (E, ob) s
    have hE1v : ∀ v, v ≠ s → acc1.1 v = E v := by
      intro v hv
      rw [hE1]
      exact Function.update_noteq hv _ _
    have hE1s : acc1.1 s = popStale part (E s) := by
      rw [hE1]
      exact Function.update_same _ _ _
    obtain ⟨ihq, ihsound, ihnone, ihmax⟩ := ih hnd' acc1.1 acc1.2
    have hfold2 : rest.foldl (scanStep part) (acc1.1, acc1.2) =
        rest.foldl (scanStep part) acc1 := by rw [Prod.mk.eta]
    rw [hfold2] at ihq ihsound ihnone ihmax
    refine ⟨?_, ?_, ?_, ?_⟩
    · -- queues
      intro v
      rw [hfold, ihq v]
      by_cases hvr : v ∈ rest
      · rw [if_pos hvr, if_pos (List.mem_cons_of_mem s hvr)]
        have hvs : v ≠ s := fun hv => hs_rest (hv ▸ hvr)
        rw [hE1v v hvs]
      · rw [if_neg hvr]
        by_cases hvs : v = s
        · subst hvs
          rw [if_pos (List.mem_cons_self v rest), hE1s]
        · rw [if_neg (fun hm => by
            rcases List.mem_cons.1 hm with h | h
            · exact hvs h
            · exact hvr h), hE1v v hvs]
    · -- soundness of the best edge
      intro b hb
      rw [hfold] at hb
      rcases ihsound b hb with hob1 | ⟨src, hsrc, rest2, hpop⟩
      · -- the best came through the first step
        rcases hq : popStale part (E s) with _ | ⟨e, q⟩
        · have h2 : acc1.2 = ob := scanStep_snd_nil part (E, ob) s hq
          rw [h2] at hob1
          exact Or.inl hob1
        · rcases hob : ob with _ | b0
          · have h2 : acc1.2 = some e :=
              scanStep_snd_cons_none part (E, ob) s e q hq hob
            rw [h2] at hob1
            have hbe : e = b := by injection hob1
            subst hbe
            exact Or.inr ⟨s, List.mem_cons_self s rest, q, hq⟩
          · have h2 : acc1.2 = some (if b0.lp < e.lp then e else b0) :=
              scanStep_snd_cons_some part (E, ob) s e b0 q hq hob
            rw [h2] at hob1
            have hbval : (if b0.lp < e.lp then e else b0) = b := by injection hob1
            by_cases hcmp : b0.lp < e.lp
            · rw [if_pos hcmp] at hbval
              subst hbval
              exact Or.inr ⟨s, List.mem_cons_self s rest, q, hq⟩
            · rw [if_neg hcmp] at hbval
              subst hbval
              exact Or.inl rfl
      · exact Or.inr ⟨src, List.mem_cons_of_mem s hsrc, rest2, by
          have hss : src ≠ s := fun hv => hs_rest (hv ▸ hsrc)
          rwa [hE1v src hss] at hpop⟩
    · -- none case
      intro hn
      rw [hfold] at hn
      obtain ⟨hob1, hall⟩ := ihnone hn
      rcases hq : popStale part (E s) with _ | ⟨e, q⟩
      · have h2 : acc1.2 = ob := scanStep_snd_nil part (E, ob) s hq
        rw [h2] at hob1
        refine ⟨hob1, ?_⟩
        intro src hsrc
        rcases List.mem_cons.1 hsrc with hss | hsr
        · subst hss; exact hq
        · have hss : src ≠ s := fun hv => hs_rest (hv ▸ hsr)
          have := hall src hsr
          rwa [hE1v src hss] at this
      · exfalso
        rcases hob : ob with _ | b0
        · have h2 : acc1.2 = some e :=
            scanStep_snd_cons_none part (E, ob) s e q hq hob
          rw [h2] at hob1
          exact Option.noConfusion hob1
        · have h2 : acc1.2 = some (if b0.lp < e.lp then e else b0) :=
            scanStep_snd_cons_some part (E, ob) s e b0 q hq hob
          rw [h2] at hob1
          exact Option.noConfusion hob1
    · -- maximality
      intro b hb
      rw [hfold] at hb
      obtain ⟨ihheads, ihcarry⟩ := ihmax b hb
      -- the value carried out of the first step is bounded by b
      have hstepbound : ∀ e1, acc1.2 = some e1 → e1.lp ≤ b.lp := ihcarry
      rcases hq : popStale part (E s) with _ | ⟨e, q⟩
      · have h2 : acc1.2 = ob := scanStep_snd_nil part (E, ob) s hq
        refine ⟨?_, ?_⟩
        · intro src hsrc f rest2 hpop
          rcases List.mem_cons.1 hsrc with hss | hsr
          · subst hss
            rw [hq] at hpop
            exact absurd hpop (by simp)
          · have hss : src ≠ s := fun hv => hs_rest (hv ▸ hsr)
            exact ihheads src hsr f rest2 (by rwa [hE1v src hss])
        · intro b0 hb0
          exact hstepbound b0 (by rw [h2, hb0])
      · rcases hob : ob with _ | b0
        · have h2 : acc1.2 = some e :=
            scanStep_snd_cons_none part (E, ob) s e q hq hob
          have hebound : e.lp ≤ b.lp := hstepbound e h2
          refine ⟨?_, ?_⟩
          · intro src hsrc f rest2 hpop
            rcases List.mem_cons.1 hsrc with hss | hsr
            · subst hss
              rw [hq] at hpop
              have hfe : e = f := (List.cons_eq_cons.1 hpop).1
              subst hfe
              exact hebound
            · have hss : src ≠ s := fun hv => hs_rest (hv ▸ hsr)
              exact ihheads src hsr f rest2 (by rwa [hE1v src hss])
          · intro b0 hb0
            exact Option.noConfusion hb0
        · have h2 : acc1.2 = some (if b0.lp < e.lp then e else b0) :=
            scanStep_snd_cons_some part (E, ob) s e b0 q hq hob
          have hmaxbound : (if b0.lp < e.lp then e else b0).lp ≤ b.lp :=
            hstepbound _ h2
          have hebound : e.lp ≤ b.lp := by
            by_cases hcmp : b0.lp < e.lp
            · rwa [if_pos hcmp] at hmaxbound
            · rw [if_neg hcmp] at hmaxbound
              push_neg at hcmp
              exact le_trans hcmp hmaxbound
          have hb0bound : b0.lp ≤ b.lp := by
            by_cases hcmp : b0.lp < e.lp
            · rw [if_pos hcmp] at hmaxbound
              exact le_trans (le_of_lt hcmp) hmaxbound
            · rwa [if_neg hcmp] at hmaxbound
          refine ⟨?_, ?_⟩
          · intro src hsrc f rest2 hpop
            rcases List.mem_cons.1 hsrc with hss | hsr
            · subst hss
              rw [hq] at hpop
              have hfe : e = f := (List.cons_eq_cons.1 hpop).1
              subst hfe
              exact hebound
            · have hss : src ≠ s := fun hv => hs_rest (hv ▸ hsr)
              exact ihheads src hsr f rest2 (by rwa [hE1v src hss])
          · intro b1 hb1
            have hbb : b0 = b1 := by injection hb1
            subst hbb
            exact hb0bound

end SpanScanTheorems

section SpanForestTheorems

theorem conn_congr {α : Type} {P Q : Edge α → Prop} (h : ∀ g, P g ↔ Q g)
    {u v : ℕ} : conn P u v ↔ conn Q u v :=
  ⟨conn_mono (fun g hg => (h g).1 hg), conn_mono (fun g hg => (h g).2 hg)⟩

theorem forest_exists {α : Type} {k : ℕ} (hk : 0 < k) :
    ∀ es : List (Edge α), (∀ e ∈ es, e.row1 < k ∧ e.row2 < k) →
    ∃ F : List (Edge α), (∀ g ∈ F, g ∈ es) ∧ F.Nodup ∧
      (∀ e ∈ F, e.row1 < k ∧ e.row2 < k) ∧
      (∀ u v, conn (fun g => g ∈ es) u v ↔ conn (fun g => g ∈ F) u v) ∧
      F.length + (mergeAll k F).nSets = k := by
  intro es
  induction es using List.reverseRecOn with
  | nil =>
    intro _
    refine ⟨[], by simp, List.nodup_nil, by simp, fun u v => Iff.rfl, ?_⟩
    show 0 + (Partition.start k).nSets = k
    simp [Partition.start]
  | append_singleton es g ihes =>
    intro hrows
    obtain ⟨F, hFsub, hFnd, hFrows, hFconn, hFcount⟩ :=
      ihes (fun e he => hrows e (List.mem_append.2 (Or.inl he)))
    have hg := hrows g (List.mem_append.2 (Or.inr (by simp)))
    have hinvF := partInv_mergeAll k F hFrows
    by_cases hcF : conn (fun f => f ∈ F) g.row1 g.row2
    · -- g is redundant: keep F
      have hces : conn (fun f => f ∈ es) g.row1 g.row2 :=
        (hFconn g.row1 g.row2).2 hcF
      refine ⟨F, fun f hf => List.mem_append.2 (Or.inl (hFsub f hf)), hFnd, hFrows, ?_, hFcount⟩
      intro u v
      rw [conn_append_redundant hces u v]
      exact hFconn u v
    · -- g joins two components: extend F
      have hgF : g ∉ F := fun hmem => hcF (conn_of_mem hmem)
      have hsame : ¬ (mergeAll k F).inSameSet g := by
        rw [partInv_inSameSet_iff hinvF g hg.1 hg.2]
        exact hcF
      have hnot1 : (mergeAll k F).nSets ≠ 1 := by
        intro h1
        have hall := (partInv_nSets_one_iff hinvF hk).1 h1
        exact hcF (conn_trans (conn_symm (hall g.row1 hg.1)) (hall g.row2 hg.2))
      have hpos : 0 < (mergeAll k F).nSets := partInv_nSets_pos hinvF hk
      refine ⟨F ++ [g], ?_, ?_, ?_, ?_, ?_⟩
      · intro f hf
        rcases List.mem_append.1 hf with h | h
        · exact List.mem_append.2 (Or.inl (hFsub f h))
        · exact List.mem_append.2 (Or.inr h)
      · rw [List.nodup_append]
        exact ⟨hFnd, List.nodup_singleton g,
          fun f hf hfg => hgF ((by simpa using hfg : f = g) ▸ hf)⟩
      · intro f hf
        rcases List.mem_append.1 hf with h | h
        · exact hFrows f h
        · exact (by simpa using h : f = g) ▸ hg
      · intro u v
        rw [conn_append_iff, conn_append_iff,
          hFconn u v, hFconn u g.row1, hFconn g.row2 v,
          hFconn u g.row2, hFconn g.row1 v]
      · rw [mergeAll_append, merge_nSets _ _ hsame]
        simp only [List.length_append, List.length_singleton]
        omega

theorem max_tree_exists {α : Type} [LinearOrderedAddCommGroup α] {k : ℕ}
    (hk : 0 < k) (es : List (Edge α))
    (hrows : ∀ e ∈ es, e.row1 < k ∧ e.row2 < k)
    (hspan : spanning k (fun g => g ∈ es)) :
    ∃ M : Finset (Edge α), (∀ g ∈ M, g ∈ es) ∧
      spanning k (fun g => g ∈ M) ∧ M.card = k - 1 ∧
      ∀ T : Finset (Edge α), (∀ g ∈ T, g ∈ es) →
        spanning k (fun g => g ∈ T) → T.card = k - 1 →
        (∑ g in T, g.lp) ≤ ∑ g in M, g.lp := by
  classical
  obtain ⟨F, hFsub, hFnd, _, hFconn, hFcount⟩ := forest_exists hk es hrows
  have hinvF := partInv_mergeAll k F (fun e he =>
    hrows e (hFsub e he))
  have hone : (mergeAll k F).nSets = 1 := by
    rw [partInv_nSets_one_iff hinvF hk]
    intro v hv
    exact (hFconn 0 v).1 (hspan 0 v hk hv)
  have hFlen : F.length = k - 1 := by omega
  -- the collection of candidate spanning trees is finite and nonempty
  set cand : Finset (Finset (Edge α)) :=
    (es.toFinset.powerset).filter (fun T =>
      spanning k (fun g => g ∈ T) ∧ T.card = k - 1) with hcand
  have hF0 : F.toFinset ∈ cand := by
    rw [hcand]
    simp only [Finset.mem_filter, Finset.mem_powerset]
    refine ⟨?_, ?_, ?_⟩
    · intro g hg
      exact List.mem_toFinset.2 (hFsub g (List.mem_toFinset.1 hg))
    · intro u v hu hv
      refine conn_mono (fun g hg => List.mem_toFinset.2 hg) ?_
      exact (hFconn u v).1 (hspan u v hu hv)
    · rw [List.toFinset_card_of_nodup hFnd, hFlen]
  obtain ⟨M, hMc, hMmax⟩ :=
    Finset.exists_max_image cand (fun T => ∑ g in T, g.lp) ⟨F.toFinset, hF0⟩
  rw [hcand] at hMc
  simp only [Finset.mem_filter, Finset.mem_powerset] at hMc
  obtain ⟨hMsub, hMspan, hMcard⟩ := hMc
  refine ⟨M, ?_, hMspan, hMcard, ?_⟩
  · intro g hg
    exact List.mem_toFinset.1 (hMsub hg)
  · intro T hTsub hTspan hTcard
    refine hMmax T ?_
    rw [hcand]
    simp only [Finset.mem_filter, Finset.mem_powerset]
    exact ⟨fun g hg => List.mem_toFinset.2 (hTsub g hg), hTspan, hTcard⟩

theorem sorted_head_max {α : Type} [LinearOrder α] {f hd : Edge α}
    {tl : List (Edge α)} (hp : (hd :: tl).Pairwise (fun a b => b.lp ≤ a.lp))
    (hf : f ∈ hd :: tl) : f.lp ≤ hd.lp := by
  rcases List.mem_cons.1 hf with rfl | hmem
  · exact le_refl _
  · exact (List.pairwise_cons.1 hp).1 f hmem

end SpanForestTheorems

section SpanLoopEquations

theorem minSpanTreeGo_succ_le {α : Type} [LinearOrder α] (fuel : ℕ)
    (E : ℕ → List (Edge α)) (part : Partition) (h : part.nSets ≤ 1) :
    minSpanTreeGo (fuel + 1) E part = .ok [] := by
  unfold minSpanTreeGo
  rw [if_pos h]

theorem minSpanTreeGo_succ_none {α : Type} [LinearOrder α] (fuel : ℕ)
    (E : ℕ → List (Edge α)) (part : Partition) (h : ¬ part.nSets ≤ 1)
    (hscan : (((part.seqSet.getD 0 ∅).sort (· ≤ ·)).foldl (scanStep part)
      (E, none)).2 = none) :
    minSpanTreeGo (fuel + 1) E part = .error .disconnected := by
  unfold minSpanTreeGo
  rw [if_neg h]
  show (match (((part.seqSet.getD 0 ∅).sort (· ≤ ·)).foldl (scanStep part)
      (E, none)).2 with
    | none => (.error .disconnected : Except PErr (List (Edge α)))
    | some best =>
        match minSpanTreeGo fuel (((part.seqSet.getD 0 ∅).sort (· ≤ ·)).foldl
            (scanStep part) (E, none)).1 (part.merge best) with
        | .ok rest => .ok (best :: rest)
        | .error err => .error err) = .error .disconnected
  rw [hscan]

theorem minSpanTreeGo_succ_some {α : Type} [LinearOrder α] (fuel : ℕ)
    (E : ℕ → List (Edge α)) (part : Partition) (best : Edge α)
    (h : ¬ part.nSets ≤ 1)
    (hscan : (((part.seqSet.getD 0 ∅).sort (· ≤ ·)).foldl (scanStep part)
      (E, none)).2 = some best) :
    minSpanTreeGo (fuel + 1) E part =
      match minSpanTreeGo fuel (((part.seqSet.getD 0 ∅).sort (· ≤ ·)).foldl
          (scanStep part) (E, none)).1 (part.merge best) with
      | .ok rest => .ok (best :: rest)
      | .error err => .error err := by
  conv_lhs => unfold minSpanTreeGo
  rw [if_neg h]
  show (match (((part.seqSet.getD 0 ∅).sort (· ≤ ·)).foldl (scanStep part)
      (E, none)).2 with
    | none => (.error .disconnected : Except PErr (List (Edge α)))
    | some best =>
        match minSpanTreeGo fuel (((part.seqSet.getD 0 ∅).sort (· ≤ ·)).foldl
            (scanStep part) (E, none)).1 (part.merge best) with
        | .ok rest => .ok (best :: rest)
        | .error err => .error err) = _
  rw [hscan]


end SpanLoopEquations

section SpanExtendTheorems

theorem max_tree_extend {α : Type} [LinearOrderedAddCommGroup α] {k : ℕ}
    {es C : List (Edge α)} {M : Finset (Edge α)} {e : Edge α}
    (hrows : ∀ g ∈ es, g.row1 < k ∧ g.row2 < k)
    (hMsub : ∀ g ∈ M, g ∈ es) (hMspan : spanning k (fun g => g ∈ M))
    (hMcard : M.card = k - 1)
    (hCM : ∀ g ∈ C, g ∈ M)
    (hMmax : ∀ T : Finset (Edge α), (∀ g ∈ T, g ∈ es) →
      spanning k (fun g => g ∈ T) → T.card = k - 1 →
      (∑ g in T, g.lp) ≤ ∑ g in M, g.lp)
    (hCcomp : ∀ g ∈ C, conn (fun f => f ∈ C) 0 g.row1 ∧
      conn (fun f => f ∈ C) 0 g.row2)
    {u0 w0 : ℕ}
    (he : (e.row1 = u0 ∧ e.row2 = w0) ∨ (e.row1 = w0 ∧ e.row2 = u0))
    (hu0 : u0 < k) (hw0 : w0 < k)
    (hu0S : conn (fun f => f ∈ C) 0 u0)
    (hw0S : ¬ conn (fun f => f ∈ C) 0 w0)
    (hees : e ∈ es)
    (hemax : ∀ f ∈ es,
      ((conn (fun g => g ∈ C) 0 f.row1 ∧ ¬ conn (fun g => g ∈ C) 0 f.row2) ∨
       (conn (fun g => g ∈ C) 0 f.row2 ∧ ¬ conn (fun g => g ∈ C) 0 f.row1)) →
      f.lp ≤ e.lp) :
    ∃ M' : Finset (Edge α), (∀ g ∈ M', g ∈ es) ∧
      spanning k (fun g => g ∈ M') ∧ M'.card = k - 1 ∧
      (∀ g ∈ C, g ∈ M') ∧ e ∈ M' ∧
      ∀ T : Finset (Edge α), (∀ g ∈ T, g ∈ es) →
        spanning k (fun g => g ∈ T) → T.card = k - 1 →
        (∑ g in T, g.lp) ≤ ∑ g in M', g.lp := by
  classical
  by_cases heM : e ∈ M
  · exact ⟨M, hMsub, hMspan, hMcard, hCM, heM, hMmax⟩
  · have hconnM : conn (fun g => g ∈ M) u0 w0 := hMspan u0 w0 hu0 hw0
    obtain ⟨f, hfM, hfcross, hrepl⟩ :=
      span_exchange (fun x => conn (fun g => g ∈ C) 0 x) e he hu0S hw0S hconnM
    have hfe : f ≠ e := fun h => heM (h ▸ hfM)
    have hflp : f.lp ≤ e.lp := hemax f (hMsub f hfM) hfcross
    have hfC : f ∉ C := by
      intro hfC
      rcases hfcross with ⟨_, hS2⟩ | ⟨_, hS2⟩
      · exact hS2 (hCcomp f hfC).2
      · exact hS2 (hCcomp f hfC).1
    have heerase : e ∉ M.erase f := fun h => heM (Finset.mem_of_mem_erase h)
    have hMpos : 1 ≤ M.card := Finset.card_pos.2 ⟨f, hfM⟩
    refine ⟨insert e (M.erase f), ?_, ?_, ?_, ?_, ?_, ?_⟩
    · intro g hg
      rcases Finset.mem_insert.1 hg with rfl | hg'
      · exact hees
      · exact hMsub g (Finset.mem_of_mem_erase hg')
    · -- spanning: every old connection survives the exchange
      intro u v hu hv
      have hpred : ∀ g : Edge α,
          ((g ∈ M ∧ g ≠ f) ∨ g = e) ↔ g ∈ insert e (M.erase f) := by
        intro g
        rw [Finset.mem_insert, Finset.mem_erase]
        constructor
        · rintro (⟨hgM, hgf⟩ | rfl)
          · exact Or.inr ⟨hgf, hgM⟩
          · exact Or.inl rfl
        · rintro (rfl | ⟨hgf, hgM⟩)
          · exact Or.inr rfl
          · exact Or.inl ⟨hgM, hgf⟩
      exact (conn_congr hpred).1 (hrepl u v (hMspan u v hu hv))
    · rw [Finset.card_insert_of_not_mem heerase, Finset.card_erase_of_mem hfM]
      omega
    · intro g hg
      exact Finset.mem_insert.2 (Or.inr (Finset.mem_erase.2 ⟨fun h => hfC (h ▸ hg), hCM g hg⟩))
    · exact Finset.mem_insert_self e _
    · intro T hTsub hTspan hTcard
      have hsum : (∑ g in M, g.lp) ≤ ∑ g in insert e (M.erase f), g.lp := by
        rw [Finset.sum_insert heerase, ← Finset.sum_erase_add M _ hfM]
        rw [add_comm (∑ g in M.erase f, Edge.lp g) f.lp]
        exact add_le_add_right hflp _
      exact le_trans (hMmax T hTsub hTspan hTcard) hsum

end SpanExtendTheorems

section SpanLoopTheorems

theorem minSpanTreeGo_spec {α : Type} [LinearOrderedAddCommGroup α] {k : ℕ}
    (hk : 0 < k) (es : List (Edge α))
    (hrows : ∀ e ∈ es, e.row1 < k ∧ e.row2 < k) :
    ∀ (fuel : ℕ) (C : List (Edge α)) (E : ℕ → List (Edge α)),
      (∀ g ∈ C, g ∈ es) → C.Nodup →
      (∀ g ∈ C, conn (fun f => f ∈ C) 0 g.row1 ∧
        conn (fun f => f ∈ C) 0 g.row2) →
      QInv k es C E →
      (mergeAll k C).nSets ≤ fuel →
      C.length + (mergeAll k C).nSets = k →
      (∃ M : Finset (Edge α), (∀ g ∈ M, g ∈ es) ∧
        spanning k (fun g => g ∈ M) ∧ M.card = k - 1 ∧ (∀ g ∈ C, g ∈ M) ∧
        ∀ T : Finset (Edge α), (∀ g ∈ T, g ∈ es) →
          spanning k (fun g => g ∈ T) → T.card = k - 1 →
          (∑ g in T, g.lp) ≤ ∑ g in M, g.lp) →
      ∃ T, minSpanTreeGo fuel E (mergeAll k C) = .ok T ∧
        C.length + T.length = k - 1 ∧ (C ++ T).Nodup ∧
        (∀ g ∈ C ++ T, g ∈ es) ∧ spanning k (fun g => g ∈ C ++ T) ∧
        ∀ T' : Finset (Edge α), (∀ g ∈ T', g ∈ es) →
          spanning k (fun g => g ∈ T') → T'.card = k - 1 →
          (∑ g in T', g.lp) ≤ ∑ g in (C ++ T).toFinset, g.lp := by
  intro fuel
  induction fuel with
  | zero =>
    intro C E hC_sub hC_nodup hC_comp hQ hfuel hlen hM
    have hinv := partInv_mergeAll k C (fun g hg => hrows g (hC_sub g hg))
    have hpos := partInv_nSets_pos hinv hk
    omega
  | succ fuel ih =>
    intro C E hC_sub hC_nodup hC_comp hQ hfuel hlen hM
    have hinv := partInv_mergeAll k C (fun g hg => hrows g (hC_sub g hg))
    set part := mergeAll k C with hpart
    by_cases hle : part.nSets ≤ 1
    · -- the loop is finished: the selected edges already span
      have hpos := partInv_nSets_pos hinv hk
      have hone : part.nSets = 1 := by omega
      have hall := (partInv_nSets_one_iff hinv hk).1 hone
      obtain ⟨M, hMsub, hMspan, hMcard, hCM, hMmax⟩ := hM
      have hceq : C.toFinset = M := by
        apply Finset.eq_of_subset_of_card_le
        · intro g hg
          exact hCM g (List.mem_toFinset.1 hg)
        · rw [List.toFinset_card_of_nodup hC_nodup]
          omega
      refine ⟨[], minSpanTreeGo_succ_le fuel E part hle, ?_, ?_, ?_, ?_, ?_⟩
      · simp only [List.length_nil]
        omega
      · simpa using hC_nodup
      · simpa using hC_sub
      · intro u v hu hv
        rw [List.append_nil]
        exact conn_trans (conn_symm (hall u hu)) (hall v hv)
      · intro T' hT'sub hT'span hT'card
        rw [List.append_nil, hceq]
        exact hMmax T' hT'sub hT'span hT'card
    · -- one more iteration
      have hgt2 : 2 ≤ part.nSets := by
        have := partInv_nSets_pos hinv hk
        omega
      set srcs := (part.seqSet.getD 0 ∅).sort (· ≤ ·) with hsrcs
      have hnodupS : srcs.Nodup := (part.seqSet.getD 0 ∅).sort_nodup (· ≤ ·)
      have hmem_srcs : ∀ x, x ∈ srcs ↔
          x < k ∧ conn (fun g => g ∈ C) 0 x := by
        intro x
        rw [hsrcs, Finset.mem_sort]
        exact partInv_seqSet_zero hinv hk x
      obtain ⟨hq, hsound, hnone, hmax⟩ := scan_master part srcs hnodupS E none
      obtain ⟨M, hMsub, hMspan, hMcard, hCM, hMmax⟩ := hM
      rcases hscan2 : (srcs.foldl (scanStep part) (E, none)).2 with _ | best
      · -- impossible: a crossing edge is always available in some queue
        exfalso
        obtain ⟨_, hallnil⟩ := hnone hscan2
        obtain ⟨v, hvk, hvnc⟩ := partInv_nSets_gt_one hinv hk (by omega)
        have hconn_es : conn (fun g => g ∈ es) 0 v :=
          conn_mono (fun g hg => hMsub g hg) (hMspan 0 v hk hvk)
        obtain ⟨f0, hf0es, hf0cross⟩ :=
          conn_crossing (fun x => conn (fun g => g ∈ C) 0 x) hconn_es
            (conn_refl _ 0) hvnc
        obtain ⟨x, hxk, hxS, hinc, hfrC⟩ : ∃ x, x < k ∧
            conn (fun g => g ∈ C) 0 x ∧ (f0.row1 = x ∨ f0.row2 = x) ∧
            ¬ conn (fun g => g ∈ C) f0.row1 f0.row2 := by
          rcases hf0cross with ⟨hS1, hS2⟩ | ⟨hS1, hS2⟩
          · exact ⟨f0.row1, (hrows f0 hf0es).1, hS1, Or.inl rfl,
              fun hc => hS2 (conn_trans hS1 hc)⟩
          · exact ⟨f0.row2, (hrows f0 hf0es).2, hS1, Or.inr rfl,
              fun hc => hS2 (conn_trans hS1 (conn_symm hc))⟩
        have hfE : f0 ∈ E x := (hQ x hxk).2.2 f0 hf0es hinc hfrC
        have hfpop : f0 ∈ popStale part (E x) :=
          popStale_mem part (E x) f0 hfE (by
            rw [partInv_inSameSet_iff hinv f0 (hrows f0 hf0es).1
              (hrows f0 hf0es).2]
            exact hfrC)
        rw [hallnil x ((hmem_srcs x).2 ⟨hxk, hxS⟩)] at hfpop
        simp at hfpop
      · -- a best edge was found
        rcases hsound best hscan2 with hnone' | ⟨src, hsrcmem, r2, hpop⟩
        · exact absurd hnone' (by simp)
        obtain ⟨hsrck, hsrcS⟩ := (hmem_srcs src).1 hsrcmem
        have hbest_pop : best ∈ popStale part (E src) := by
          rw [hpop]
          exact List.mem_cons_self best r2
        have hbestE : best ∈ E src :=
          (popStale_sublist part (E src)).subset hbest_pop
        obtain ⟨hbest_es, hbest_inc⟩ := (hQ src hsrck).2.1 best hbestE
        have hbrows := hrows best hbest_es
        have hfresh_part : ¬ part.inSameSet best :=
          popStale_head_fresh part (E src) best r2 hpop
        have hfreshC : ¬ conn (fun g => g ∈ C) best.row1 best.row2 := by
          rwa [partInv_inSameSet_iff hinv best hbrows.1 hbrows.2] at hfresh_part
        obtain ⟨u0, w0, he, hu0k, hw0k, hu0S, hw0S⟩ : ∃ u0 w0,
            ((best.row1 = u0 ∧ best.row2 = w0) ∨
             (best.row1 = w0 ∧ best.row2 = u0)) ∧ u0 < k ∧ w0 < k ∧
            conn (fun g => g ∈ C) 0 u0 ∧
            ¬ conn (fun g => g ∈ C) 0 w0 := by
          rcases hbest_inc with h1 | h2
          · refine ⟨best.row1, best.row2, Or.inl ⟨rfl, rfl⟩, hbrows.1,
              hbrows.2, h1 ▸ hsrcS, ?_⟩
            intro hc
            exact hfreshC (conn_trans (conn_symm (h1 ▸ hsrcS)) hc)
          · refine ⟨best.row2, best.row1, Or.inr ⟨rfl, rfl⟩, hbrows.2,
              hbrows.1, h2 ▸ hsrcS, ?_⟩
            intro hc
            have h0r2 : conn (fun g => g ∈ C) 0 best.row2 := by
              rw [h2]; exact hsrcS
            exact hfreshC (conn_trans (conn_symm hc) h0r2)
        have hcut : ∀ f ∈ es,
            ((conn (fun g => g ∈ C) 0 f.row1 ∧
              ¬ conn (fun g => g ∈ C) 0 f.row2) ∨
             (conn (fun g => g ∈ C) 0 f.row2 ∧
              ¬ conn (fun g => g ∈ C) 0 f.row1)) →
            f.lp ≤ best.lp := by
          intro f hfes hcross
          obtain ⟨x, hxk, hxS, hinc, hfrC⟩ : ∃ x, x < k ∧
              conn (fun g => g ∈ C) 0 x ∧ (f.row1 = x ∨ f.row2 = x) ∧
              ¬ conn (fun g => g ∈ C) f.row1 f.row2 := by
            rcases hcross with ⟨hS1, hS2⟩ | ⟨hS1, hS2⟩
            · exact ⟨f.row1, (hrows f hfes).1, hS1, Or.inl rfl,
                fun hc => hS2 (conn_trans hS1 hc)⟩
            · exact ⟨f.row2, (hrows f hfes).2, hS1, Or.inr rfl,
                fun hc => hS2 (conn_trans hS1 (conn_symm hc))⟩
          have hfE : f ∈ E x := (hQ x hxk).2.2 f hfes hinc hfrC
          have hfpop : f ∈ popStale part (E x) :=
            popStale_mem part (E x) f hfE (by
              rw [partInv_inSameSet_iff hinv f (hrows f hfes).1
                (hrows f hfes).2]
              exact hfrC)
          rcases hps : popStale part (E x) with _ | ⟨f', r'⟩
          · rw [hps] at hfpop
            simp at hfpop
          · have hsorted' : (f' :: r').Pairwise (fun a b => b.lp ≤ a.lp) := by
              rw [← hps]
              exact List.Pairwise.sublist (popStale_sublist part (E x))
                (hQ x hxk).1
            have hf_le : f.lp ≤ f'.lp := by
              rw [hps] at hfpop
              exact sorted_head_max hsorted' hfpop
            have hx_src : x ∈ srcs := (hmem_srcs x).2 ⟨hxk, hxS⟩
            exact le_trans hf_le ((hmax best hscan2).1 x hx_src f' r' hps)
        obtain ⟨M', hM'sub, hM'span, hM'card, hCM', heM', hM'max⟩ :=
          max_tree_extend hrows hMsub hMspan hMcard hCM hMmax hC_comp
            he hu0k hw0k hu0S hw0S hbest_es hcut
        -- the edge is genuinely new
        have hbC : best ∉ C := fun hmem => hfreshC (conn_of_mem hmem)
        have hC_sub' : ∀ g ∈ C ++ [best], g ∈ es := by
          intro g hg
          rcases List.mem_append.1 hg with h | h
          · exact hC_sub g h
          · exact (by simpa using h : g = best) ▸ hbest_es
        have hC_nodup' : (C ++ [best]).Nodup := by
          rw [List.nodup_append]
          exact ⟨hC_nodup, List.nodup_singleton best,
            fun g hgC hgb => hbC ((by simpa using hgb : g = best) ▸ hgC)⟩
        have hmono2 : ∀ x y, conn (fun f => f ∈ C) x y →
            conn (fun f => f ∈ C ++ [best]) x y :=
          fun x y => conn_mono (fun g hg => List.mem_append.2 (Or.inl hg))
        have hbmem : best ∈ C ++ [best] := List.mem_append.2 (Or.inr (by simp))
        have hC_comp' : ∀ g ∈ C ++ [best],
            conn (fun f => f ∈ C ++ [best]) 0 g.row1 ∧
            conn (fun f => f ∈ C ++ [best]) 0 g.row2 := by
          have h0u0 : conn (fun f => f ∈ C ++ [best]) 0 u0 :=
            hmono2 _ _ hu0S
          have hu0w0 : conn (fun f => f ∈ C ++ [best]) u0 w0 := by
            rcases he with ⟨ha, hb⟩ | ⟨ha, hb⟩
            · exact conn_step ⟨best, hbmem, Or.inl ⟨ha, hb⟩⟩
            · exact conn_step ⟨best, hbmem, Or.inr ⟨ha, hb⟩⟩
          have h0w0 : conn (fun f => f ∈ C ++ [best]) 0 w0 :=
            conn_trans h0u0 hu0w0
          intro g hg
          rcases List.mem_append.1 hg with hgC | hgb
          · exact ⟨hmono2 _ _ (hC_comp g hgC).1, hmono2 _ _ (hC_comp g hgC).2⟩
          · have hgb' : g = best := by simpa using hgb
            subst hgb'
            rcases he with ⟨ha, hb⟩ | ⟨ha, hb⟩
            · refine ⟨?_, ?_⟩
              · rw [ha]; exact h0u0
              · rw [hb]; exact h0w0
            · refine ⟨?_, ?_⟩
              · rw [ha]; exact h0w0
              · rw [hb]; exact h0u0
        have hQ' : QInv k es (C ++ [best])
            ((srcs.foldl (scanStep part) (E, none)).1) := by
          intro v hvk
          obtain ⟨hsort_v, hsound_v, hcomp_v⟩ := hQ v hvk
          have hmonoC : ∀ x y, conn (fun g => g ∈ C) x y →
              conn (fun g => g ∈ C ++ [best]) x y :=
            fun x y => conn_mono (fun g hg => List.mem_append.2 (Or.inl hg))
          rw [hq v]
          by_cases hvs : v ∈ srcs
          · rw [if_pos hvs]
            refine ⟨List.Pairwise.sublist (popStale_sublist part (E v))
              hsort_v, ?_, ?_⟩
            · intro f hf
              exact hsound_v f ((popStale_sublist part (E v)).subset hf)
            · intro f hfes hinc hfr
              have hfrC : ¬ conn (fun g => g ∈ C) f.row1 f.row2 :=
                fun hc => hfr (hmonoC _ _ hc)
              refine popStale_mem part (E v) f (hcomp_v f hfes hinc hfrC) ?_
              rw [partInv_inSameSet_iff hinv f (hrows f hfes).1
                (hrows f hfes).2]
              exact hfrC
          · rw [if_neg hvs]
            exact ⟨hsort_v, hsound_v, fun f hfes hinc hfr =>
              hcomp_v f hfes hinc (fun hc => hfr (hmonoC _ _ hc))⟩
        have hmerge : mergeAll k (C ++ [best]) = part.merge best := by
          rw [mergeAll_append, ← hpart]
        have hfuel' : (mergeAll k (C ++ [best])).nSets ≤ fuel := by
          rw [hmerge, merge_nSets part best hfresh_part]
          omega
        have hlen' : (C ++ [best]).length + (mergeAll k (C ++ [best])).nSets
            = k := by
          rw [hmerge, merge_nSets part best hfresh_part]
          simp only [List.length_append, List.length_singleton]
          omega
        obtain ⟨rest, hrun, hlen2, hnodup2, hmem2, hspan2, hmax2⟩ :=
          ih (C ++ [best]) ((srcs.foldl (scanStep part) (E, none)).1)
            hC_sub' hC_nodup' hC_comp' hQ' hfuel' hlen'
            ⟨M', hM'sub, hM'span, hM'card,
              (fun g hg => by
                rcases List.mem_append.1 hg with h | h
                · exact hCM' g h
                · exact (by simpa using h : g = best) ▸ heM'), hM'max⟩
        rw [hmerge] at hrun
        have hl : (C ++ [best]) ++ rest = C ++ best :: rest := by simp
        rw [hl] at hnodup2 hmem2 hspan2 hmax2
        refine ⟨best :: rest, ?_, ?_, hnodup2, hmem2, hspan2, hmax2⟩
        · rw [minSpanTreeGo_succ_some fuel E part best hle hscan2, hrun]
        · simp only [List.length_append, List.length_singleton,
            List.length_cons, List.length_nil] at hlen2 ⊢
          omega

end SpanLoopTheorems

section SpanTreeClaim

/-- C7: for an `AlignGraph` over `k` sequences whose stored edges
connect all `k` vertices — the per-vertex priority queues holding the
stored incident edges in nonincreasing `lp` order — `minSpanTree`
terminates with `.ok`, returns exactly `k - 1` edges (hence `k - 1`
alignment paths), the selected edges are distinct and span the `k`
vertices (a spanning tree), and their total `lp` is maximal over every
spanning tree of the stored edge set; in particular the lazy discarding
of stale queue tops never discards an edge that could still improve the
tree. -/
theorem claimC7_min_span_tree {α : Type} [LinearOrderedAddCommGroup α] (k : ℕ)
    (es : List (Edge α)) (E0 : ℕ → List (Edge α))
    (hk : 0 < k)
    (hrows : ∀ e ∈ es, e.row1 < k ∧ e.row2 < k)
    (hspan : spanning k (fun g => g ∈ es))
    (hsorted : ∀ v, v < k → (E0 v).Pairwise (fun a b => b.lp ≤ a.lp))
    (hsound : ∀ v, v < k → ∀ f ∈ E0 v, f ∈ es ∧ (f.row1 = v ∨ f.row2 = v))
    (hcomplete : ∀ v, v < k → ∀ f ∈ es, (f.row1 = v ∨ f.row2 = v) →
      f.row1 ≠ f.row2 → f ∈ E0 v) :
    ∃ T, minSpanTree k E0 = Except.ok T ∧
      T.length = k - 1 ∧ T.Nodup ∧ (∀ g ∈ T, g ∈ es) ∧
      spanning k (fun g => g ∈ T) ∧
      ∀ T' : Finset (Edge α), (∀ g ∈ T', g ∈ es) →
        spanning k (fun g => g ∈ T') → T'.card = k - 1 →
        (∑ g in T', g.lp) ≤ ∑ g in T.toFinset, g.lp := by
  have hQ0 : QInv k es [] E0 := by
    intro v hv
    refine ⟨hsorted v hv, hsound v hv, ?_⟩
    intro f hfes hinc hfr
    refine hcomplete v hv f hfes hinc ?_
    intro hEq
    exact hfr (by rw [conn_nil_iff]; exact hEq)
  obtain ⟨M, hM1, hM2, hM3, hM4⟩ := max_tree_exists hk es hrows hspan
  have hns : (mergeAll k ([] : List (Edge α))).nSets = k := rfl
  obtain ⟨T, hrun, hlen, hnodup, hmem, hspanT, hmax⟩ :=
    minSpanTreeGo_spec hk es hrows k [] E0 (by simp) List.nodup_nil (by simp)
      hQ0 (le_of_eq hns) (by simp [hns]) ⟨M, hM1, hM2, hM3, by simp, hM4⟩
  refine ⟨T, hrun, ?_, ?_, ?_, ?_, ?_⟩
  · simpa using hlen
  · simpa using hnodup
  · simpa using hmem
  · simpa using hspanT
  · simpa using hmax

theorem claimC7_min_span_tree_witness :
    ∃ T, minSpanTree 2 (fun _ => [(⟨0, 1, (1 : ℚ)⟩ : Edge ℚ)]) =
        Except.ok T ∧
      T.length = 2 - 1 ∧ T.Nodup ∧
      (∀ g ∈ T, g ∈ [(⟨0, 1, (1 : ℚ)⟩ : Edge ℚ)]) ∧
      spanning 2 (fun g => g ∈ T) ∧
      ∀ T' : Finset (Edge ℚ),
        (∀ g ∈ T', g ∈ [(⟨0, 1, (1 : ℚ)⟩ : Edge ℚ)]) →
        spanning 2 (fun g => g ∈ T') → T'.card = 2 - 1 →
        (∑ g in T', g.lp) ≤ ∑ g in T.toFinset, g.lp := by
  refine claimC7_min_span_tree 2 [(⟨0, 1, (1 : ℚ)⟩ : Edge ℚ)]
      (fun _ => [(⟨0, 1, (1 : ℚ)⟩ : Edge ℚ)]) (by norm_num) ?_ ?_ ?_ ?_ ?_
  · intro e he
    rw [List.mem_singleton] at he
    subst he
    exact ⟨by norm_num, by norm_num⟩
  · intro u v hu hv
    have hstep : conn (fun g => g ∈ [(⟨0, 1, (1 : ℚ)⟩ : Edge ℚ)]) 0 1 :=
      conn_step ⟨⟨0, 1, (1 : ℚ)⟩, by simp, Or.inl ⟨rfl, rfl⟩⟩
    interval_cases u <;> interval_cases v
    · exact conn_refl _ 0
    · exact hstep
    · exact conn_symm hstep
    · exact conn_refl _ 1
  · intro v _
    exact List.pairwise_singleton _ _
  · intro v hv f hf
    rw [List.mem_singleton] at hf
    subst hf
    refine ⟨by simp, ?_⟩
    interval_cases v
    · exact Or.inl rfl
    · exact Or.inr rfl
  · intro v _ f hfes _ _
    rw [List.mem_singleton] at hfes
    subst hfes
    exact List.mem_singleton.2 rfl

end SpanTreeClaim

end Propaelor
